import Mathlib

/-!
# Verification of the hmat-oss recursive block-algebra engine

This file gives a shallow embedding of the recursive block algorithms of
`src/recursion.cpp` (block LU, LDLT, triangular solves, block inverse),
of the `ScalarArray` view constructors and serialization contract of
`src/scalar_array.hpp`, and of the parameter plumbing of the C interface,
and proves the specification claims about them.

An Internal H-matrix node holds a grid of child blocks, some of which may
be absent (null pointers in the source).  The child blocks are modelled
symbolically: each in-place primitive invoked on a child
(`luDecomposition`, `solveLowerTriangularLeft`, `gemm`, ...) becomes a
constructor of `MatExpr`, so the value of a cell after a run records the
exact sequence of primitives the source applied to it and the operands
they were given.  Dereferencing an absent child models as failure
(`none`), mirroring the null-pointer crash of the C++ code.  The
execution order of the primitives is recorded in an event trace.
-/

set_option maxHeartbeats 1000000

namespace HmatOss

/-- Scalar coefficients used by the recursive algebra calls
(`Constants<T>::pone`, `Constants<T>::mone`, `Constants<T>::zero`). -/
inductive Coef where
  | pone
  | mone
  | zero
deriving DecidableEq

/-- Symbolic value of a child block of an Internal node.  Each constructor
records one in-place primitive of the source applied to the block together
with the symbolic values of its operands at call time.  `init i j` is the
initial content of child `(i, j)`. -/
inductive MatExpr where
  | init (i j : Nat)
  | luDecomposition (a : MatExpr)
  | ldltDecomposition (a : MatExpr)
  | solveLowerTriangularLeft (l b : MatExpr) (unitriangular : Bool)
  | solveUpperTriangularRight (u b : MatExpr) (unitriangular lowerStored : Bool)
  | solveUpperTriangularLeft (u b : MatExpr) (unitriangular lowerStored : Bool)
  | multiplyWithDiag (a d : MatExpr) (left inverse : Bool)
  | mdmtProduct (dest m d : MatExpr)
  | mdntProduct (dest m d nOp : MatExpr)
  | gemm (transA transB : Char) (alpha : Coef) (a b : MatExpr) (beta : Coef) (dest : MatExpr)
deriving DecidableEq

/-- The child grid of an Internal node: cell `(i, j)` holds the block's
symbolic value, `none` when the child pointer is null. -/
def Grid : Type := Nat → Nat → Option MatExpr

/-- Overwrite cell `(i, j)` (an in-place mutation of a child block). -/
def setCell (g : Grid) (i j : Nat) (v : MatExpr) : Grid :=
  fun a b => if a = i ∧ b = j then some v else g a b

theorem setCell_same (g : Grid) (i j : Nat) (v : MatExpr) :
    setCell g i j v i j = some v := by
  simp [setCell]

theorem setCell_other (g : Grid) (i j a b : Nat) (v : MatExpr)
    (h : ¬(a = i ∧ b = j)) : setCell g i j v a b = g a b := by
  simp only [setCell, if_neg h]

/-- The index sequence `s, s+1, ..., s+n-1` of a C++ `for` loop. -/
def idxList : Nat → Nat → List Nat
  | _, 0 => []
  | s, n + 1 => s :: idxList (s + 1) n

theorem mem_idxList {i : Nat} : ∀ {s n : Nat}, i ∈ idxList s n ↔ s ≤ i ∧ i < s + n := by
  intro s n
  induction n generalizing s with
  | zero =>
    simp only [idxList, List.not_mem_nil, false_iff, not_and, not_lt]
    omega
  | succ m ih =>
    simp only [idxList, List.mem_cons, ih]
    omega

/-- Sequence a loop body over the given indices, threading the grid and
collecting the primitive-call events in execution order.  A body returning
`none` models a crash (null dereference): the loop aborts, keeping the
events already emitted. -/
def mseq {E : Type} (f : Nat → Grid → Option Grid × List E) :
    List Nat → Grid → Option Grid × List E
  | [], g => (some g, [])
  | i :: is, g =>
    match (f i g).1 with
    | some g1 => ((mseq f is g1).1, (f i g).2 ++ (mseq f is g1).2)
    | none => (none, (f i g).2)

/-- Sequencing for event-carrying computations (failure keeps the prefix
of events already emitted). -/
def mbind {E : Type} (r : Option Grid × List E) (f : Grid → Option Grid × List E) :
    Option Grid × List E :=
  match r.1 with
  | some g => ((f g).1, r.2 ++ (f g).2)
  | none => (none, r.2)

/-- Eventless loop sequencing (for the triangular solves, whose claims do
not concern the trace). -/
def oseq (f : Nat → Grid → Option Grid) : List Nat → Grid → Option Grid
  | [], g => some g
  | i :: is, g => (f i g).bind (oseq f is)

/-! ## Block LU decomposition (`recursion.cpp:160-200`)

`RecursionMatrix::recursiveLuDecomposition` loops `k` over the diagonal
children; at each `k` it factors `H[k,k]`, solves the rest of row `k`,
solves the rest of column `k`, then updates the trailing submatrix.  The
events record each primitive call in execution order. -/

/-- Execution events of `recursiveLuDecomposition`. -/
inductive LuEv where
  | facto (k : Nat)
  | rowSolve (k i : Nat)
  | colSolve (k i : Nat)
  | update (k i j : Nat)
deriving DecidableEq

/-- `me()->get(k,k)->luDecomposition();` (recursion.cpp:183); the call
dereferences the diagonal child with no presence guard. -/
def luFacto (k : Nat) (g : Grid) : Option Grid × List LuEv :=
  match g k k with
  | some hkk => (some (setCell g k k (.luDecomposition hkk)), [.facto k])
  | none => (none, [])

/-- Row-solve loop body (recursion.cpp:186-187): guarded on both
`H[k,k]` and `H[k,i]`, skipped silently when either is absent. -/
def luRowSolve (k i : Nat) (g : Grid) : Option Grid × List LuEv :=
  match g k k, g k i with
  | some hkk, some hki =>
    (some (setCell g k i (.solveLowerTriangularLeft hkk hki true)), [.rowSolve k i])
  | _, _ => (some g, [])

/-- Column-solve loop body (recursion.cpp:190-191). -/
def luColSolve (k i : Nat) (g : Grid) : Option Grid × List LuEv :=
  match g k k, g i k with
  | some hkk, some hik =>
    (some (setCell g i k (.solveUpperTriangularRight hkk hik false false)), [.colSolve k i])
  | _, _ => (some g, [])

/-- Trailing-update loop body (recursion.cpp:196-197): guarded on all
three operands. -/
def luUpdate (k i j : Nat) (g : Grid) : Option Grid × List LuEv :=
  match g i j, g i k, g k j with
  | some hij, some lik, some ukj =>
    (some (setCell g i j (.gemm 'N' 'N' .mone lik ukj .pone hij)), [.update k i j])
  | _, _, _ => (some g, [])

/-- One iteration of the outer `k` loop (recursion.cpp:181-198). -/
def luStep (n k : Nat) (g : Grid) : Option Grid × List LuEv :=
  mbind (luFacto k g) fun g1 =>
  mbind (mseq (luRowSolve k) (idxList (k + 1) (n - (k + 1))) g1) fun g2 =>
  mbind (mseq (luColSolve k) (idxList (k + 1) (n - (k + 1))) g2) fun g3 =>
  mseq (fun i g => mseq (fun j g => luUpdate k i j g) (idxList (k + 1) (n - (k + 1))) g)
    (idxList (k + 1) (n - (k + 1))) g3

/-- `RecursionMatrix::recursiveLuDecomposition` on an Internal node with
`n = nrChildRow()` diagonal children. -/
def recursiveLuDecomposition (n : Nat) (g : Grid) : Option Grid × List LuEv :=
  mseq (luStep n) (idxList 0 n) g

/-! ### Specification rendering of the block LU (claim C1)

Written from the spec's words: at each diagonal step `k`,
1. factor `H[k,k]` (recursive LU);
2. for `i > k` with `H[k,i]` present, replace `H[k,i]` by the solution of
   the unit-lower left solve `L[k,k] * U[k,i] = H[k,i]`;
3. for `i > k` with `H[i,k]` present, replace `H[i,k]` by the solution of
   the non-unit upper right solve `L[i,k] * U[k,k] = H[i,k]`;
4. for `i, j > k` with `H[i,j]`, `H[i,k]`, `H[k,j]` all present, update
   `H[i,j] -= L[i,k] * U[k,j]` by one GEMM;
any child absent at a guard is skipped, untouched. -/
def luStepSpec (n k : Nat) (g : Grid) : Option Grid :=
  match g k k with
  | none => none
  | some hkk =>
    some (fun i j =>
      if i = k ∧ j = k then some (.luDecomposition hkk)
      else if i = k ∧ k < j ∧ j < n then
        (g k j).map fun hkj =>
          .solveLowerTriangularLeft (.luDecomposition hkk) hkj true
      else if j = k ∧ k < i ∧ i < n then
        (g i k).map fun hik =>
          .solveUpperTriangularRight (.luDecomposition hkk) hik false false
      else if k < i ∧ i < n ∧ k < j ∧ j < n then
        match g i j, g i k, g k j with
        | some hij, some hik, some hkj =>
          some (.gemm 'N' 'N' .mone
            (.solveUpperTriangularRight (.luDecomposition hkk) hik false false)
            (.solveLowerTriangularLeft (.luDecomposition hkk) hkj true)
            .pone hij)
        | _, _, _ => g i j
      else g i j)

/-- The spec's block LU: diagonal steps composed in increasing `k` order. -/
def luDecompositionSpec (n : Nat) (g : Grid) : Option Grid :=
  oseq (luStepSpec n) (idxList 0 n) g

/-! ### Loop characterizations for the LU refinement proof -/

theorem luRow_loop_fst (k : Nat) (d : MatExpr) :
    ∀ (len s : Nat) (g : Grid), k < s → g k k = some d →
    (mseq (luRowSolve k) (idxList s len) g).1 =
      some (fun a b =>
        if a = k ∧ s ≤ b ∧ b < s + len
        then (g k b).map (fun h => MatExpr.solveLowerTriangularLeft d h true)
        else g a b) := by
  intro len
  induction len with
  | zero =>
    intro s g _ _
    simp only [idxList, mseq]
    congr 1
    funext a b
    rw [if_neg]
    rintro ⟨_, h1, h2⟩
    omega
  | succ m ih =>
    intro s g hk hd
    simp only [idxList, mseq]
    cases hgs : g k s with
    | some h =>
      simp only [luRowSolve, hd, hgs]
      rw [ih (s + 1) (setCell g k s (.solveLowerTriangularLeft d h true)) (by omega)
        (by rw [setCell_other]; exact hd; rintro ⟨_, hc⟩; omega)]
      congr 1
      funext a b
      by_cases hab : a = k ∧ s ≤ b ∧ b < s + (m + 1)
      · rw [if_pos hab]
        obtain ⟨ha, hb1, hb2⟩ := hab
        by_cases hbs : b = s
        · rw [if_neg (by rintro ⟨_, hc, _⟩; omega)]
          subst ha hbs
          rw [setCell_same, hgs]
          rfl
        · rw [if_pos ⟨ha, by omega, by omega⟩]
          rw [setCell_other]
          rintro ⟨_, hc⟩
          exact hbs hc
      · rw [if_neg hab]
        rw [if_neg (by rintro ⟨ha, hb1, hb2⟩; exact hab ⟨ha, by omega, by omega⟩)]
        rw [setCell_other]
        rintro ⟨ha, hb⟩
        exact hab ⟨ha, by omega, by omega⟩
    | none =>
      simp only [luRowSolve, hd, hgs]
      rw [ih (s + 1) g (by omega) hd]
      congr 1
      funext a b
      by_cases hab : a = k ∧ s ≤ b ∧ b < s + (m + 1)
      · rw [if_pos hab]
        obtain ⟨ha, hb1, hb2⟩ := hab
        by_cases hbs : b = s
        · rw [if_neg (by rintro ⟨_, hc, _⟩; omega)]
          subst ha hbs
          rw [hgs]
          rfl
        · rw [if_pos ⟨ha, by omega, by omega⟩]
      · rw [if_neg hab]
        rw [if_neg (by rintro ⟨ha, hb1, hb2⟩; exact hab ⟨ha, by omega, by omega⟩)]

theorem luCol_loop_fst (k : Nat) (d : MatExpr) :
    ∀ (len s : Nat) (g : Grid), k < s → g k k = some d →
    (mseq (luColSolve k) (idxList s len) g).1 =
      some (fun a b =>
        if b = k ∧ s ≤ a ∧ a < s + len
        then (g a k).map (fun h => MatExpr.solveUpperTriangularRight d h false false)
        else g a b) := by
  intro len
  induction len with
  | zero =>
    intro s g _ _
    simp only [idxList, mseq]
    congr 1
    funext a b
    rw [if_neg]
    rintro ⟨_, h1, h2⟩
    omega
  | succ m ih =>
    intro s g hk hd
    simp only [idxList, mseq]
    cases hgs : g s k with
    | some h =>
      simp only [luColSolve, hd, hgs]
      rw [ih (s + 1) (setCell g s k (.solveUpperTriangularRight d h false false)) (by omega)
        (by rw [setCell_other]; exact hd; rintro ⟨hc, _⟩; omega)]
      congr 1
      funext a b
      by_cases hab : b = k ∧ s ≤ a ∧ a < s + (m + 1)
      · rw [if_pos hab]
        obtain ⟨hb, ha1, ha2⟩ := hab
        by_cases has : a = s
        · rw [if_neg (by rintro ⟨_, hc, _⟩; omega)]
          subst hb has
          rw [setCell_same, hgs]
          rfl
        · rw [if_pos ⟨hb, by omega, by omega⟩]
          rw [setCell_other]
          rintro ⟨hc, _⟩
          exact has hc
      · rw [if_neg hab]
        rw [if_neg (by rintro ⟨hb, ha1, ha2⟩; exact hab ⟨hb, by omega, by omega⟩)]
        rw [setCell_other]
        rintro ⟨ha, hb⟩
        exact hab ⟨hb, by omega, by omega⟩
    | none =>
      simp only [luColSolve, hd, hgs]
      rw [ih (s + 1) g (by omega) hd]
      congr 1
      funext a b
      by_cases hab : b = k ∧ s ≤ a ∧ a < s + (m + 1)
      · rw [if_pos hab]
        obtain ⟨hb, ha1, ha2⟩ := hab
        by_cases has : a = s
        · rw [if_neg (by rintro ⟨_, hc, _⟩; omega)]
          subst hb has
          rw [hgs]
          rfl
        · rw [if_pos ⟨hb, by omega, by omega⟩]
      · rw [if_neg hab]
        rw [if_neg (by rintro ⟨hb, ha1, ha2⟩; exact hab ⟨hb, by omega, by omega⟩)]

/-- Value written (or kept) by one trailing-update attempt at `(i, b)`. -/
def luUpdVal (k i b : Nat) (g : Grid) : Option MatExpr :=
  match g i b, g i k, g k b with
  | some hij, some lik, some ukj =>
    some (.gemm 'N' 'N' .mone lik ukj .pone hij)
  | _, _, _ => g i b

theorem luUpd_inner_fst (k i : Nat) (hik : i ≠ k) :
    ∀ (len s : Nat) (g : Grid), k < s →
    (mseq (fun j g => luUpdate k i j g) (idxList s len) g).1 =
      some (fun a b =>
        if a = i ∧ s ≤ b ∧ b < s + len then luUpdVal k i b g else g a b) := by
  intro len
  induction len with
  | zero =>
    intro s g _
    simp only [idxList, mseq]
    congr 1
    funext a b
    rw [if_neg]
    rintro ⟨_, h1, h2⟩
    omega
  | succ m ih =>
    intro s g hk
    simp only [idxList, mseq]
    have step : ∀ g1 : Grid,
        (∀ a b, ¬(a = i ∧ b = s) → g1 a b = g a b) →
        g1 i s = luUpdVal k i s g →
        (mseq (fun j g => luUpdate k i j g) (idxList (s + 1) m) g1).1 =
          some (fun a b =>
            if a = i ∧ s ≤ b ∧ b < s + (m + 1) then luUpdVal k i b g else g a b) := by
      intro g1 hother hval
      rw [ih (s + 1) g1 (by omega)]
      congr 1
      funext a b
      by_cases hab : a = i ∧ s ≤ b ∧ b < s + (m + 1)
      · rw [if_pos hab]
        obtain ⟨ha, hb1, hb2⟩ := hab
        by_cases hbs : b = s
        · rw [if_neg (by rintro ⟨_, hc, _⟩; omega)]
          subst ha hbs
          exact hval
        · rw [if_pos ⟨ha, by omega, by omega⟩]
          have e1 : g1 i b = g i b := hother _ _ (by rintro ⟨_, hc⟩; exact hbs hc)
          have e2 : g1 i k = g i k := hother _ _ (by rintro ⟨_, hc⟩; omega)
          have e3 : g1 k b = g k b := hother _ _ (by rintro ⟨hc, _⟩; exact hik hc.symm)
          simp only [luUpdVal, e1, e2, e3]
      · rw [if_neg hab]
        rw [if_neg (by rintro ⟨ha, hb1, hb2⟩; exact hab ⟨ha, by omega, by omega⟩)]
        exact hother _ _ (by rintro ⟨ha, hb⟩; exact hab ⟨ha, by omega, by omega⟩)
    cases hgib : g i s with
    | some hij =>
      cases hgik : g i k with
      | some lik =>
        cases hgkb : g k s with
        | some ukj =>
          simp only [luUpdate, hgib, hgik, hgkb]
          exact step _
            (fun a b hne => setCell_other _ _ _ _ _ _ hne)
            (by rw [setCell_same]; simp [luUpdVal, hgib, hgik, hgkb])
        | none =>
          simp only [luUpdate, hgib, hgik, hgkb]
          exact step g (fun _ _ _ => rfl) (by simp [luUpdVal, hgib, hgik, hgkb])
      | none =>
        simp only [luUpdate, hgib, hgik]
        exact step g (fun _ _ _ => rfl) (by simp [luUpdVal, hgib, hgik])
    | none =>
      simp only [luUpdate, hgib]
      exact step g (fun _ _ _ => rfl) (by simp [luUpdVal, hgib])

theorem luUpdVal_congr (k i b : Nat) (g1 g2 : Grid)
    (h1 : g1 i b = g2 i b) (h2 : g1 i k = g2 i k) (h3 : g1 k b = g2 k b) :
    luUpdVal k i b g1 = luUpdVal k i b g2 := by
  simp only [luUpdVal, h1, h2, h3]

theorem luUpd_outer_fst (k s0 len0 : Nat) (hs0 : k < s0) :
    ∀ (len s : Nat) (g : Grid), k < s →
    (mseq (fun i g => mseq (fun j g => luUpdate k i j g) (idxList s0 len0) g)
        (idxList s len) g).1 =
      some (fun a b =>
        if (s ≤ a ∧ a < s + len) ∧ (s0 ≤ b ∧ b < s0 + len0)
        then luUpdVal k a b g else g a b) := by
  intro len
  induction len with
  | zero =>
    intro s g _
    simp only [idxList, mseq]
    congr 1
    funext a b
    rw [if_neg]
    rintro ⟨⟨h1, h2⟩, _⟩
    omega
  | succ m ih =>
    intro s g hk
    simp only [idxList, mseq]
    rw [luUpd_inner_fst k s (by omega) len0 s0 g hs0]
    rw [ih (s + 1) _ (by omega)]
    congr 1
    funext a b
    by_cases hab : (s ≤ a ∧ a < s + (m + 1)) ∧ (s0 ≤ b ∧ b < s0 + len0)
    · rw [if_pos hab]
      obtain ⟨⟨ha1, ha2⟩, hb⟩ := hab
      by_cases has : a = s
      · rw [if_neg (by rintro ⟨⟨hc, _⟩, _⟩; omega)]
        subst has
        rw [if_pos ⟨rfl, hb.1, hb.2⟩]
      · rw [if_pos ⟨⟨by omega, by omega⟩, hb⟩]
        refine luUpdVal_congr k a b _ g ?_ ?_ ?_
        · exact if_neg (by rintro ⟨hc, _⟩; exact has hc)
        · exact if_neg (by rintro ⟨hc, _⟩; exact has hc)
        · exact if_neg (by rintro ⟨hc, _⟩; omega)
    · rw [if_neg hab]
      rw [if_neg (by rintro ⟨⟨ha1, ha2⟩, hb⟩; exact hab ⟨⟨by omega, by omega⟩, hb⟩)]
      by_cases has : a = s ∧ s0 ≤ b ∧ b < s0 + len0
      · exact absurd ⟨⟨by omega, by omega⟩, has.2⟩ hab
      · rw [if_neg has]

/-! Named stage grids, to state the pointwise values of the intermediate
states of one LU diagonal step. -/

/-- Grid after the row-solve loop of step `k`. -/
def luRowGrid (k : Nat) (d : MatExpr) (s len : Nat) (g : Grid) : Grid := fun a b =>
  if a = k ∧ s ≤ b ∧ b < s + len
  then (g k b).map (fun h => MatExpr.solveLowerTriangularLeft d h true)
  else g a b

/-- Grid after the column-solve loop of step `k`. -/
def luColGrid (k : Nat) (d : MatExpr) (s len : Nat) (g : Grid) : Grid := fun a b =>
  if b = k ∧ s ≤ a ∧ a < s + len
  then (g a k).map (fun h => MatExpr.solveUpperTriangularRight d h false false)
  else g a b

/-- Grid after the trailing-update double loop of step `k`. -/
def luUpdGrid (k : Nat) (s len : Nat) (g : Grid) : Grid := fun a b =>
  if (s ≤ a ∧ a < s + len) ∧ (s ≤ b ∧ b < s + len)
  then luUpdVal k a b g else g a b

theorem luRow_char (k : Nat) (d : MatExpr) (len s : Nat) (g : Grid)
    (h1 : k < s) (h2 : g k k = some d) :
    (mseq (luRowSolve k) (idxList s len) g).1 = some (luRowGrid k d s len g) :=
  luRow_loop_fst k d len s g h1 h2

theorem luCol_char (k : Nat) (d : MatExpr) (len s : Nat) (g : Grid)
    (h1 : k < s) (h2 : g k k = some d) :
    (mseq (luColSolve k) (idxList s len) g).1 = some (luColGrid k d s len g) :=
  luCol_loop_fst k d len s g h1 h2

theorem luUpd_char (k len s : Nat) (g : Grid) (h1 : k < s) :
    (mseq (fun i g => mseq (fun j g => luUpdate k i j g) (idxList s len) g)
        (idxList s len) g).1 = some (luUpdGrid k s len g) :=
  luUpd_outer_fst k s len h1 len s g h1

theorem mbind_fst_some {E : Type} {r : Option Grid × List E} {g : Grid} (h : r.1 = some g)
    (f : Grid → Option Grid × List E) : (mbind r f).1 = (f g).1 := by
  unfold mbind
  rw [h]

theorem mbind_fst_none {E : Type} {r : Option Grid × List E} (h : r.1 = none)
    (f : Grid → Option Grid × List E) : (mbind r f).1 = none := by
  unfold mbind
  rw [h]

/-- One LU diagonal step of the code agrees with the spec's rendering of
the step. -/
theorem luStep_fst (n k : Nat) (g : Grid) : (luStep n k g).1 = luStepSpec n k g := by
  cases hkk : g k k with
  | none =>
    have hf : (luFacto k g).1 = none := by simp [luFacto, hkk]
    unfold luStep
    rw [mbind_fst_none hf, luStepSpec, hkk]
  | some d =>
    have hf : (luFacto k g).1 = some (setCell g k k (.luDecomposition d)) := by
      simp [luFacto, hkk]
    unfold luStep
    rw [mbind_fst_some hf]
    rw [mbind_fst_some (luRow_char k (.luDecomposition d) (n - (k + 1)) (k + 1) _
      (by omega) (setCell_same g k k _))]
    have hRkk : luRowGrid k (.luDecomposition d) (k + 1) (n - (k + 1))
        (setCell g k k (.luDecomposition d)) k k = some (.luDecomposition d) := by
      unfold luRowGrid
      rw [if_neg (by rintro ⟨_, hc, _⟩; omega), setCell_same]
    rw [mbind_fst_some (luCol_char k (.luDecomposition d) (n - (k + 1)) (k + 1) _
      (by omega) hRkk)]
    rw [luUpd_char k (n - (k + 1)) (k + 1) _ (by omega)]
    -- pointwise values of the grid after the column solves
    set g1 : Grid := setCell g k k (.luDecomposition d) with hg1
    set Rg : Grid := luRowGrid k (.luDecomposition d) (k + 1) (n - (k + 1)) g1 with hRg
    set Cg : Grid := luColGrid k (.luDecomposition d) (k + 1) (n - (k + 1)) Rg with hCg
    have hC1 : ∀ a b, a ≠ k → b ≠ k → Cg a b = g a b := by
      intro a b ha hb
      rw [hCg]
      unfold luColGrid
      rw [if_neg (by rintro ⟨hc, _⟩; exact hb hc)]
      rw [hRg]
      unfold luRowGrid
      rw [if_neg (by rintro ⟨hc, _⟩; exact ha hc)]
      rw [hg1, setCell_other _ _ _ _ _ _ (by rintro ⟨hc, _⟩; exact ha hc)]
    have hC2 : ∀ b, k < b → b < n → Cg k b =
        (g k b).map (fun h => MatExpr.solveLowerTriangularLeft (.luDecomposition d) h true) := by
      intro b hb1 hb2
      rw [hCg]
      unfold luColGrid
      rw [if_neg (by rintro ⟨hc, _⟩; omega)]
      rw [hRg]
      unfold luRowGrid
      rw [if_pos ⟨rfl, by omega, by omega⟩]
      rw [hg1, setCell_other _ _ _ _ _ _ (by rintro ⟨_, hc⟩; omega)]
    have hC3 : ∀ b, ¬(k < b ∧ b < n) → b ≠ k → Cg k b = g k b := by
      intro b hb hbk
      rw [hCg]
      unfold luColGrid
      rw [if_neg (by rintro ⟨hc, _⟩; exact hbk hc)]
      rw [hRg]
      unfold luRowGrid
      rw [if_neg (by rintro ⟨_, hc1, hc2⟩; exact hb ⟨by omega, by omega⟩)]
      rw [hg1, setCell_other _ _ _ _ _ _ (by rintro ⟨_, hc⟩; exact hbk hc)]
    have hC4 : ∀ a, k < a → a < n → Cg a k =
        (g a k).map (fun h =>
          MatExpr.solveUpperTriangularRight (.luDecomposition d) h false false) := by
      intro a ha1 ha2
      rw [hCg]
      unfold luColGrid
      rw [if_pos ⟨rfl, by omega, by omega⟩]
      congr 1
      rw [hRg]
      unfold luRowGrid
      rw [if_neg (by rintro ⟨hc, _⟩; omega)]
      rw [hg1, setCell_other _ _ _ _ _ _ (by rintro ⟨hc, _⟩; omega)]
    have hC5 : ∀ a, ¬(k < a ∧ a < n) → a ≠ k → Cg a k = g a k := by
      intro a ha hak
      rw [hCg]
      unfold luColGrid
      rw [if_neg (by rintro ⟨_, hc1, hc2⟩; exact ha ⟨by omega, by omega⟩)]
      rw [hRg]
      unfold luRowGrid
      rw [if_neg (by rintro ⟨hc, _⟩; exact hak hc)]
      rw [hg1, setCell_other _ _ _ _ _ _ (by rintro ⟨hc, _⟩; exact hak hc)]
    have hC6 : Cg k k = some (.luDecomposition d) := by
      rw [hCg]
      unfold luColGrid
      rw [if_neg (by rintro ⟨_, hc, _⟩; omega)]
      exact hRkk
    rw [luStepSpec, hkk]
    congr 1
    funext a b
    unfold luUpdGrid
    split_ifs
    all_goals try exact ((by omega : False)).elim
    · rename_i h0 h1 h2 h3 h4
      obtain ⟨ha1, ha2, hb1, hb2⟩ := h4
      unfold luUpdVal
      rw [hC1 a b (by omega) (by omega), hC4 a ha1 ha2, hC2 b hb1 hb2]
      cases g a b <;> cases g a k <;> cases g k b <;> rfl
    · rename_i h0 h1
      rw [h1.1, h1.2]
      exact hC6
    · rename_i h0 h1 h2
      obtain ⟨ha, hb1, hb2⟩ := h2
      rw [ha]
      exact hC2 b hb1 hb2
    · rename_i h0 h1 h2 h3
      obtain ⟨hb, ha1, ha2⟩ := h3
      rw [hb]
      exact hC4 a ha1 ha2
    · rename_i h0 h1 h2 h3 h4
      by_cases hak : a = k
      · rw [hak]
        exact hC3 b (fun hc => h2 ⟨hak, hc.1, hc.2⟩) (fun hc => h1 ⟨hak, hc⟩)
      · by_cases hbk : b = k
        · rw [hbk]
          exact hC5 a (fun hc => h3 ⟨hbk, hc.1, hc.2⟩) hak
        · exact hC1 a b hak hbk

theorem mseq_fst_eq_oseq {E : Type} (f : Nat → Grid → Option Grid × List E)
    (fs : Nat → Grid → Option Grid) (h : ∀ i g, (f i g).1 = fs i g) :
    ∀ (l : List Nat) (g : Grid), (mseq f l g).1 = oseq fs l g := by
  intro l
  induction l with
  | nil => intro g; rfl
  | cons i is ih =>
    intro g
    simp only [mseq, oseq, h i g]
    cases fs i g with
    | some g1 => simp only [Option.bind]; exact ih g1
    | none => rfl

/-! ### Execution order of the LU primitives (claim C5) -/

/-- Diagonal step an LU event belongs to. -/
def luEvStep : LuEv → Nat
  | .facto k => k
  | .rowSolve k _ => k
  | .colSolve k _ => k
  | .update k _ _ => k

/-- Phase of an LU event inside its diagonal step: 0 the diagonal
factorization, 1 the row solves, 2 the column solves, 3 the trailing
update. -/
def luEvPhase : LuEv → Nat
  | .facto _ => 0
  | .rowSolve _ _ => 1
  | .colSolve _ _ => 2
  | .update _ _ _ => 3

/-- Temporal order required by the spec: an earlier event belongs to an
earlier diagonal step, or to the same step and a phase at most that of the
later event. -/
def luEvLe (a b : LuEv) : Prop :=
  luEvStep a < luEvStep b ∨ (luEvStep a = luEvStep b ∧ luEvPhase a ≤ luEvPhase b)

theorem mem_mbind {E : Type} {r : Option Grid × List E} {f : Grid → Option Grid × List E}
    {e : E} (he : e ∈ (mbind r f).2) :
    e ∈ r.2 ∨ ∃ g, r.1 = some g ∧ e ∈ (f g).2 := by
  unfold mbind at he
  cases hr : r.1 with
  | some g =>
    rw [hr] at he
    simp only [List.mem_append] at he
    rcases he with h | h
    · exact Or.inl h
    · exact Or.inr ⟨g, rfl, h⟩
  | none =>
    rw [hr] at he
    exact Or.inl he

theorem mem_mseq {E : Type} (f : Nat → Grid → Option Grid × List E) :
    ∀ (l : List Nat) (g : Grid) (e : E), e ∈ (mseq f l g).2 →
      ∃ i ∈ l, ∃ g0, e ∈ (f i g0).2 := by
  intro l
  induction l with
  | nil =>
    intro g e he
    simp [mseq] at he
  | cons i is ih =>
    intro g e he
    simp only [mseq] at he
    cases hfi : (f i g).1 with
    | some g1 =>
      simp only [hfi, List.mem_append] at he
      rcases he with h | h
      · exact ⟨i, List.mem_cons_self i is, g, h⟩
      · obtain ⟨j, hj, g0, hg0⟩ := ih g1 e h
        exact ⟨j, List.mem_cons_of_mem _ hj, g0, hg0⟩
    | none =>
      simp only [hfi] at he
      exact ⟨i, List.mem_cons_self i is, g, he⟩

theorem pairwise_mbind {E : Type} (R : E → E → Prop) (r : Option Grid × List E)
    (f : Grid → Option Grid × List E) (h1 : List.Pairwise R r.2)
    (h2 : ∀ g, List.Pairwise R (f g).2)
    (hx : ∀ a ∈ r.2, ∀ g b, b ∈ (f g).2 → R a b) :
    List.Pairwise R (mbind r f).2 := by
  unfold mbind
  cases hr : r.1 with
  | some g =>
    refine List.pairwise_append.2 ⟨h1, h2 g, ?_⟩
    intro a ha b hb
    exact hx a ha g b hb
  | none => exact h1

theorem pairwise_mseq {E : Type} (R : E → E → Prop) (f : Nat → Grid → Option Grid × List E) :
    ∀ (l : List Nat),
      List.Pairwise (fun i j => ∀ g1 g2 a b, a ∈ (f i g1).2 → b ∈ (f j g2).2 → R a b) l →
      (∀ i g, List.Pairwise R (f i g).2) →
      ∀ g, List.Pairwise R (mseq f l g).2 := by
  intro l
  induction l with
  | nil =>
    intro _ _ g
    simp [mseq]
  | cons i is ih =>
    intro hl hEach g
    rw [List.pairwise_cons] at hl
    simp only [mseq]
    cases hfi : (f i g).1 with
    | some g1 =>
      refine List.pairwise_append.2 ⟨hEach i g, ih hl.2 hEach g1, ?_⟩
      intro a ha b hb
      obtain ⟨j, hj, g0, hg0⟩ := mem_mseq f is g1 b hb
      exact hl.1 j hj g g0 a b ha hg0
    | none => exact hEach i g

theorem idxList_pairwise_lt : ∀ (s n : Nat), List.Pairwise (· < ·) (idxList s n) := by
  intro s n
  induction n generalizing s with
  | zero => exact List.Pairwise.nil
  | succ m ih =>
    simp only [idxList, List.pairwise_cons]
    exact ⟨fun j hj => (mem_idxList.1 hj).1, ih (s + 1)⟩

theorem luFacto_ev {k : Nat} {g : Grid} {e : LuEv} (he : e ∈ (luFacto k g).2) :
    luEvStep e = k ∧ luEvPhase e = 0 := by
  unfold luFacto at he
  cases hkk : g k k <;> simp [hkk] at he
  subst he
  exact ⟨rfl, rfl⟩

theorem luRowSolve_ev {k i : Nat} {g : Grid} {e : LuEv} (he : e ∈ (luRowSolve k i g).2) :
    luEvStep e = k ∧ luEvPhase e = 1 := by
  unfold luRowSolve at he
  cases h1 : g k k <;> cases h2 : g k i <;> simp [h1, h2] at he
  subst he
  exact ⟨rfl, rfl⟩

theorem luColSolve_ev {k i : Nat} {g : Grid} {e : LuEv} (he : e ∈ (luColSolve k i g).2) :
    luEvStep e = k ∧ luEvPhase e = 2 := by
  unfold luColSolve at he
  cases h1 : g k k <;> cases h2 : g i k <;> simp [h1, h2] at he
  subst he
  exact ⟨rfl, rfl⟩

theorem luUpdate_ev {k i j : Nat} {g : Grid} {e : LuEv} (he : e ∈ (luUpdate k i j g).2) :
    luEvStep e = k ∧ luEvPhase e = 3 := by
  unfold luUpdate at he
  cases h1 : g i j <;> cases h2 : g i k <;> cases h3 : g k j <;> simp [h1, h2, h3] at he
  subst he
  exact ⟨rfl, rfl⟩

/-- Every event of diagonal step `k` carries step index `k` and its phase. -/
theorem luStep_ev (n k : Nat) (g : Grid) {e : LuEv} (he : e ∈ (luStep n k g).2) :
    luEvStep e = k := by
  unfold luStep at he
  rcases mem_mbind he with h | ⟨g1, _, h⟩
  · exact (luFacto_ev h).1
  rcases mem_mbind h with h | ⟨g2, _, h⟩
  · obtain ⟨i, _, g0, h0⟩ := mem_mseq _ _ _ _ h
    exact (luRowSolve_ev h0).1
  rcases mem_mbind h with h | ⟨g3, _, h⟩
  · obtain ⟨i, _, g0, h0⟩ := mem_mseq _ _ _ _ h
    exact (luColSolve_ev h0).1
  obtain ⟨i, _, g0, h0⟩ := mem_mseq _ _ _ _ h
  obtain ⟨j, _, g0j, h0j⟩ := mem_mseq _ _ _ _ h0
  exact (luUpdate_ev h0j).1

/-- Within one diagonal step, events are ordered by phase: the diagonal
factorization, then all row solves, then all column solves, then the
trailing update. -/
theorem luStep_pairwise (n k : Nat) (g : Grid) :
    List.Pairwise luEvLe (luStep n k g).2 := by
  have rowPW : ∀ g0, List.Pairwise luEvLe
      (mseq (luRowSolve k) (idxList (k + 1) (n - (k + 1))) g0).2 := by
    intro g0
    refine pairwise_mseq _ _ _ ?_ ?_ g0
    · refine List.Pairwise.imp_of_mem ?_ (idxList_pairwise_lt _ _)
      intro i j _ _ _ g1 g2 a b ha hb
      obtain ⟨hsa, hpa⟩ := luRowSolve_ev ha
      obtain ⟨hsb, hpb⟩ := luRowSolve_ev hb
      right
      omega
    · intro i g1
      unfold luRowSolve
      cases g1 k k <;> cases g1 k i <;> simp
  have colPW : ∀ g0, List.Pairwise luEvLe
      (mseq (luColSolve k) (idxList (k + 1) (n - (k + 1))) g0).2 := by
    intro g0
    refine pairwise_mseq _ _ _ ?_ ?_ g0
    · refine List.Pairwise.imp_of_mem ?_ (idxList_pairwise_lt _ _)
      intro i j _ _ _ g1 g2 a b ha hb
      obtain ⟨hsa, hpa⟩ := luColSolve_ev ha
      obtain ⟨hsb, hpb⟩ := luColSolve_ev hb
      right
      omega
    · intro i g1
      unfold luColSolve
      cases g1 k k <;> cases g1 i k <;> simp
  have updEv : ∀ i g0 (e : LuEv),
      e ∈ (mseq (fun j g => luUpdate k i j g) (idxList (k + 1) (n - (k + 1))) g0).2 →
      luEvStep e = k ∧ luEvPhase e = 3 := by
    intro i g0 e he
    obtain ⟨j, _, g1, h1⟩ := mem_mseq _ _ _ _ he
    exact luUpdate_ev h1
  have updPW : ∀ g0, List.Pairwise luEvLe
      (mseq (fun i g => mseq (fun j g => luUpdate k i j g) (idxList (k + 1) (n - (k + 1))) g)
        (idxList (k + 1) (n - (k + 1))) g0).2 := by
    intro g0
    refine pairwise_mseq _ _ _ ?_ ?_ g0
    · refine List.Pairwise.imp_of_mem ?_ (idxList_pairwise_lt _ _)
      intro i j _ _ _ g1 g2 a b ha hb
      obtain ⟨hsa, hpa⟩ := updEv i g1 a ha
      obtain ⟨hsb, hpb⟩ := updEv j g2 b hb
      right
      omega
    · intro i g1
      refine pairwise_mseq _ _ _ ?_ ?_ g1
      · refine List.Pairwise.imp_of_mem ?_ (idxList_pairwise_lt _ _)
        intro p q _ _ _ gp gq a b ha hb
        obtain ⟨hsa, hpa⟩ := luUpdate_ev ha
        obtain ⟨hsb, hpb⟩ := luUpdate_ev hb
        right
        omega
      · intro j gj
        unfold luUpdate
        cases gj i j <;> cases gj i k <;> cases gj k j <;> simp
  have rowEvm : ∀ g0 (e : LuEv),
      e ∈ (mseq (luRowSolve k) (idxList (k + 1) (n - (k + 1))) g0).2 →
      luEvStep e = k ∧ luEvPhase e = 1 := by
    intro g0 e he
    obtain ⟨i, _, g1, h1⟩ := mem_mseq _ _ _ _ he
    exact luRowSolve_ev h1
  have colEvm : ∀ g0 (e : LuEv),
      e ∈ (mseq (luColSolve k) (idxList (k + 1) (n - (k + 1))) g0).2 →
      luEvStep e = k ∧ luEvPhase e = 2 := by
    intro g0 e he
    obtain ⟨i, _, g1, h1⟩ := mem_mseq _ _ _ _ he
    exact luColSolve_ev h1
  have updEvm : ∀ g0 (e : LuEv),
      e ∈ (mseq (fun i g => mseq (fun j g => luUpdate k i j g)
        (idxList (k + 1) (n - (k + 1))) g) (idxList (k + 1) (n - (k + 1))) g0).2 →
      luEvStep e = k ∧ luEvPhase e = 3 := by
    intro g0 e he
    obtain ⟨i, _, g1, h1⟩ := mem_mseq _ _ _ _ he
    exact updEv i g1 e h1
  unfold luStep
  refine pairwise_mbind _ _ _ ?_ ?_ ?_
  · unfold luFacto
    cases g k k <;> simp
  · intro g1
    refine pairwise_mbind _ _ _ (rowPW g1) ?_ ?_
    · intro g2
      refine pairwise_mbind _ _ _ (colPW g2) (fun g3 => updPW g3) ?_
      intro a ha g3 b hb
      obtain ⟨hsa, hpa⟩ := colEvm g2 a ha
      obtain ⟨hsb, hpb⟩ := updEvm g3 b hb
      right
      omega
    · intro a ha g2 b hb
      obtain ⟨hsa, hpa⟩ := rowEvm g1 a ha
      rcases mem_mbind hb with h | ⟨g3, _, h⟩
      · obtain ⟨hsb, hpb⟩ := colEvm g2 b h
        right
        omega
      · obtain ⟨hsb, hpb⟩ := updEvm g3 b h
        right
        omega
  · intro a ha g1 b hb
    obtain ⟨hsa, hpa⟩ := luFacto_ev ha
    rcases mem_mbind hb with h | ⟨g2, _, h⟩
    · obtain ⟨hsb, hpb⟩ := rowEvm g1 b h
      right
      omega
    rcases mem_mbind h with h2 | ⟨g3, _, h2⟩
    · obtain ⟨hsb, hpb⟩ := colEvm g2 b h2
      right
      omega
    · obtain ⟨hsb, hpb⟩ := updEvm g3 b h2
      right
      omega

/-- C5.  The trace of `recursiveLuDecomposition` is ordered: any event is
preceded only by events of a strictly earlier diagonal step, or of the
same step and an earlier-or-equal phase (factorization, then row solves,
then column solves, then trailing update); the outer loop over `k` is
strictly sequential. -/
theorem recursiveLuDecomposition_phase_order (n : Nat) (g : Grid) :
    List.Pairwise luEvLe (recursiveLuDecomposition n g).2 := by
  unfold recursiveLuDecomposition
  refine pairwise_mseq _ _ _ ?_ (fun k g0 => luStep_pairwise n k g0) g
  refine List.Pairwise.imp_of_mem ?_ (idxList_pairwise_lt 0 n)
  intro i j _ _ hij g1 g2 a b ha hb
  left
  rw [luStep_ev n i g1 ha, luStep_ev n j g2 hb]
  exact hij

/-- C1.  `recursiveLuDecomposition` performs exactly the spec's block LU:
at each diagonal step `k` in increasing order it factors `H[k,k]`, then for
`i > k` replaces present `H[k,i]` by the unit-lower left solve against
`L[k,k]`, then replaces present `H[i,k]` by the non-unit upper right solve
against `U[k,k]`, then updates every `H[i,j]` (`i, j > k`) with all three
operands present by one GEMM `H[i,j] -= L[i,k] * U[k,j]`; children absent
at a guard are skipped untouched. -/
theorem recursiveLuDecomposition_eq_spec (n : Nat) (g : Grid) :
    (recursiveLuDecomposition n g).1 = luDecompositionSpec n g :=
  mseq_fst_eq_oseq (luStep n) (luStepSpec n) (fun k g => luStep_fst n k g) (idxList 0 n) g

/-! ## Block LDLT decomposition (`recursion.cpp:36-75`)

At each diagonal step `k`: factor `H[k,k]` by LDLT; for `i > k` solve
`Lik Dk tLkk = Hik` (`solveUpperTriangularRight(..., false, true)` then
`multiplyWithDiag(..., false, true)` on `H[i,k]`); then update the blocks
`(i,j)` with `k < j <= i <= n-1`, using `mdmtProduct` on the diagonal and
`mdntProduct` strictly below it.  No presence guards exist: every
dereference of an absent child is a failure. -/

/-- Execution events of `recursiveLdltDecomposition`. -/
inductive LdltEv where
  | facto (k : Nat)
  | colSolve (k i : Nat)
  | scaleDiag (k i : Nat)
  | mdmt (k i : Nat)
  | mdnt (k i j : Nat)
deriving DecidableEq

/-- The child cell written by an LDLT event. -/
def ldltEvTarget : LdltEv → Nat × Nat
  | .facto k => (k, k)
  | .colSolve k i => (i, k)
  | .scaleDiag k i => (i, k)
  | .mdmt _ i => (i, i)
  | .mdnt _ i j => (i, j)

/-- `me()->get(k,k)->ldltDecomposition();` (recursion.cpp:57). -/
def ldltFacto (k : Nat) (g : Grid) : Option Grid × List LdltEv :=
  match g k k with
  | some hkk => (some (setCell g k k (.ldltDecomposition hkk)), [.facto k])
  | none => (none, [])

/-- Column loop body (recursion.cpp:59-62): `solveUpperTriangularRight` on
`H[i,k]` followed by `multiplyWithDiag` on the solved block. -/
def ldltColStep (k i : Nat) (g : Grid) : Option Grid × List LdltEv :=
  match g k k, g i k with
  | some hkk, some hik =>
    (some (setCell (setCell g i k (.solveUpperTriangularRight hkk hik false true)) i k
        (.multiplyWithDiag (.solveUpperTriangularRight hkk hik false true) hkk false true)),
     [.colSolve k i, .scaleDiag k i])
  | _, _ => (none, [])

/-- Trailing-update body (recursion.cpp:64-72): `mdmtProduct` when
`i = j`, `mdntProduct` otherwise. -/
def ldltUpdate (k i j : Nat) (g : Grid) : Option Grid × List LdltEv :=
  if i = j then
    match g i i, g i k, g k k with
    | some hii, some lik, some dkk =>
      (some (setCell g i i (.mdmtProduct hii lik dkk)), [.mdmt k i])
    | _, _, _ => (none, [])
  else
    match g i j, g i k, g k k, g j k with
    | some hij, some lik, some dkk, some ljk =>
      (some (setCell g i j (.mdntProduct hij lik dkk ljk)), [.mdnt k i j])
    | _, _, _, _ => (none, [])

/-- One iteration of the outer `k` loop (recursion.cpp:55-73); the inner
update loop runs over `k < j <= i`. -/
def ldltStep (n k : Nat) (g : Grid) : Option Grid × List LdltEv :=
  mbind (ldltFacto k g) fun g1 =>
  mbind (mseq (ldltColStep k) (idxList (k + 1) (n - (k + 1))) g1) fun g2 =>
  mseq (fun i g => mseq (fun j g => ldltUpdate k i j g) (idxList (k + 1) (i - k)) g)
    (idxList (k + 1) (n - (k + 1))) g2

/-- `RecursionMatrix::recursiveLdltDecomposition`. -/
def recursiveLdltDecomposition (n : Nat) (g : Grid) : Option Grid × List LdltEv :=
  mseq (ldltStep n) (idxList 0 n) g

/-- The complete primitive-call sequence of one LDLT diagonal step. -/
def ldltStepTrace (n k : Nat) : List LdltEv :=
  [.facto k]
  ++ (idxList (k + 1) (n - (k + 1))).flatMap (fun i => [.colSolve k i, .scaleDiag k i])
  ++ (idxList (k + 1) (n - (k + 1))).flatMap (fun i =>
       (idxList (k + 1) (i - k)).flatMap (fun j =>
         if i = j then [LdltEv.mdmt k i] else [LdltEv.mdnt k i j]))

/-- The complete primitive-call sequence of a successful LDLT run. -/
def ldltTraceSpec (n : Nat) : List LdltEv :=
  (idxList 0 n).flatMap (ldltStepTrace n)

/-! ### Generic success lemmas -/

theorem mbind_success {E : Type} {r : Option Grid × List E} {f : Grid → Option Grid × List E}
    (hs : (mbind r f).1.isSome) :
    ∃ g, r.1 = some g ∧ (f g).1.isSome ∧ (mbind r f).2 = r.2 ++ (f g).2 := by
  unfold mbind at hs ⊢
  cases hr : r.1 with
  | some g =>
    rw [hr] at hs
    exact ⟨g, rfl, hs, rfl⟩
  | none =>
    rw [hr] at hs
    simp at hs

theorem mseq_trace_of_success {E : Type} (f : Nat → Grid → Option Grid × List E)
    (ev : Nat → List E) (hf : ∀ i g, (f i g).1.isSome → (f i g).2 = ev i) :
    ∀ (l : List Nat) (g : Grid), (mseq f l g).1.isSome →
      (mseq f l g).2 = l.flatMap ev := by
  intro l
  induction l with
  | nil =>
    intro g _
    rfl
  | cons i is ih =>
    intro g hs
    cases hfi : (f i g).1 with
    | some g1 =>
      have hev := hf i g (by rw [hfi]; rfl)
      have hrest : (mseq f is g1).1.isSome := by
        simp only [mseq, hfi] at hs
        exact hs
      simp only [mseq, hfi, List.flatMap_cons, hev, ih g1 hrest]
    | none =>
      simp only [mseq, hfi] at hs
      simp at hs

/-- Copies of a cell-frame through `mseq`: if every body (for an index in
the list) preserves all strictly-upper cells, so does the loop. -/
theorem mseq_frame {E : Type} (f : Nat → Grid → Option Grid × List E) :
    ∀ (l : List Nat),
      (∀ i ∈ l, ∀ (g g' : Grid), (f i g).1 = some g' → ∀ a b, a < b → g' a b = g a b) →
      ∀ (g g' : Grid), (mseq f l g).1 = some g' → ∀ a b, a < b → g' a b = g a b := by
  intro l
  induction l with
  | nil =>
    intro _ g g' h a b _
    simp only [mseq] at h
    cases h
    rfl
  | cons i is ih =>
    intro hb g g' h a b hab
    cases hfi : (f i g).1 with
    | some g1 =>
      simp only [mseq, hfi] at h
      rw [ih (fun j hj => hb j (List.mem_cons_of_mem _ hj)) g1 g' h a b hab]
      exact hb i (List.mem_cons_self i is) g g1 hfi a b hab
    | none =>
      simp only [mseq, hfi] at h
      cases h

theorem mbind_frame {E : Type} {r : Option Grid × List E} {f : Grid → Option Grid × List E}
    {g0 g' : Grid}
    (hr : ∀ gm, r.1 = some gm → ∀ a b, a < b → gm a b = g0 a b)
    (hf : ∀ gm gm2, (f gm).1 = some gm2 → ∀ a b, a < b → gm2 a b = gm a b)
    (h : (mbind r f).1 = some g') : ∀ a b, a < b → g' a b = g0 a b := by
  intro a b hab
  unfold mbind at h
  cases hrr : r.1 with
  | some gm =>
    rw [hrr] at h
    rw [hf gm g' h a b hab]
    exact hr gm hrr a b hab
  | none =>
    rw [hrr] at h
    cases h

theorem setCell_frame_le {g : Grid} {r c : Nat} (hrc : c ≤ r) (v : MatExpr) :
    ∀ a b, a < b → setCell g r c v a b = g a b := by
  intro a b hab
  apply setCell_other
  rintro ⟨ha, hb⟩
  omega

/-! ### LDLT per-primitive lemmas -/

theorem ldltFacto_trace {k : Nat} {g : Grid} (hs : (ldltFacto k g).1.isSome) :
    (ldltFacto k g).2 = [LdltEv.facto k] := by
  unfold ldltFacto at hs ⊢
  cases h1 : g k k <;> simp [h1] at hs ⊢

theorem ldltColStep_trace {k i : Nat} {g : Grid} (hs : (ldltColStep k i g).1.isSome) :
    (ldltColStep k i g).2 = [LdltEv.colSolve k i, LdltEv.scaleDiag k i] := by
  unfold ldltColStep at hs ⊢
  cases h1 : g k k <;> cases h2 : g i k <;> simp [h1, h2] at hs ⊢

theorem ldltUpdate_trace {k i j : Nat} {g : Grid} (hs : (ldltUpdate k i j g).1.isSome) :
    (ldltUpdate k i j g).2 =
      if i = j then [LdltEv.mdmt k i] else [LdltEv.mdnt k i j] := by
  unfold ldltUpdate at hs ⊢
  by_cases hij : i = j
  · simp only [if_pos hij] at hs ⊢
    cases h1 : g i i <;> cases h2 : g i k <;> cases h3 : g k k <;> simp [h1, h2, h3] at hs ⊢
  · simp only [if_neg hij] at hs ⊢
    cases h1 : g i j <;> cases h2 : g i k <;> cases h3 : g k k <;> cases h4 : g j k <;>
      simp [h1, h2, h3, h4] at hs ⊢

theorem ldltStep_trace {n k : Nat} {g : Grid} (hs : (ldltStep n k g).1.isSome) :
    (ldltStep n k g).2 = ldltStepTrace n k := by
  unfold ldltStep at hs ⊢
  obtain ⟨g1, hg1, hs1, he1⟩ := mbind_success hs
  obtain ⟨g2, hg2, hs2, he2⟩ := mbind_success hs1
  rw [he1, he2]
  rw [ldltFacto_trace (by rw [hg1]; rfl)]
  rw [mseq_trace_of_success (ldltColStep k) (fun i => [LdltEv.colSolve k i, LdltEv.scaleDiag k i])
    (fun i g hi => ldltColStep_trace hi) _ g1 (by rw [hg2]; rfl)]
  rw [mseq_trace_of_success
    (fun i g => mseq (fun j g => ldltUpdate k i j g) (idxList (k + 1) (i - k)) g)
    (fun i => (idxList (k + 1) (i - k)).flatMap (fun j =>
      if i = j then [LdltEv.mdmt k i] else [LdltEv.mdnt k i j]))
    (fun i g hi => mseq_trace_of_success (fun j g => ldltUpdate k i j g)
      (fun j => if i = j then [LdltEv.mdmt k i] else [LdltEv.mdnt k i j])
      (fun j g hj => ldltUpdate_trace hj) _ g hi)
    _ g2 hs2]
  simp [ldltStepTrace]

theorem ldltFacto_frame {k : Nat} {g g' : Grid} (h : (ldltFacto k g).1 = some g') :
    ∀ a b, a < b → g' a b = g a b := by
  unfold ldltFacto at h
  cases h1 : g k k <;> simp [h1] at h
  subst h
  exact setCell_frame_le (le_refl k) _

theorem ldltColStep_frame {k i : Nat} (hki : k ≤ i) {g g' : Grid}
    (h : (ldltColStep k i g).1 = some g') : ∀ a b, a < b → g' a b = g a b := by
  unfold ldltColStep at h
  cases h1 : g k k <;> cases h2 : g i k <;> simp [h1, h2] at h
  subst h
  intro a b hab
  rw [setCell_frame_le hki _ a b hab, setCell_frame_le hki _ a b hab]

theorem ldltUpdate_frame {k i j : Nat} (hji : j ≤ i) {g g' : Grid}
    (h : (ldltUpdate k i j g).1 = some g') : ∀ a b, a < b → g' a b = g a b := by
  unfold ldltUpdate at h
  by_cases hij : i = j
  · simp only [if_pos hij] at h
    cases c1 : g i i <;> cases c2 : g i k <;> cases c3 : g k k <;> simp [c1, c2, c3] at h
    subst h
    exact setCell_frame_le (le_refl i) _
  · simp only [if_neg hij] at h
    cases c1 : g i j <;> cases c2 : g i k <;> cases c3 : g k k <;> cases c4 : g j k <;>
      simp [c1, c2, c3, c4] at h
    subst h
    exact setCell_frame_le hji _

theorem ldltStep_frame {n k : Nat} {g g' : Grid} (h : (ldltStep n k g).1 = some g') :
    ∀ a b, a < b → g' a b = g a b := by
  unfold ldltStep at h
  refine mbind_frame ?_ ?_ h
  · intro gm hgm
    exact ldltFacto_frame hgm
  · intro gm gm2 h2
    refine mbind_frame ?_ ?_ h2
    · intro gmm hgmm
      refine mseq_frame _ _ ?_ gm gmm hgmm
      intro i hi g0 g0' h0
      exact ldltColStep_frame (by have := (mem_idxList.1 hi).1; omega) h0
    · intro gmm gmm2 h3
      refine mseq_frame _ _ ?_ gmm gmm2 h3
      intro i hi g0 g0' h0
      refine mseq_frame _ _ ?_ g0 g0' h0
      intro j hj g1 g1' h1
      have hj2 := mem_idxList.1 hj
      exact ldltUpdate_frame (by omega) h1

theorem ldltStep_ev_shape {n k : Nat} {g : Grid} {e : LdltEv}
    (he : e ∈ (ldltStep n k g).2) :
    (ldltEvTarget e).2 ≤ (ldltEvTarget e).1 ∧ ∀ k' i j, e = .mdnt k' i j → j < i := by
  unfold ldltStep at he
  rcases mem_mbind he with h | ⟨g1, _, h⟩
  · unfold ldltFacto at h
    cases h1 : g k k <;> simp [h1] at h
    subst h
    exact ⟨le_refl k, by intro k' i j hc; cases hc⟩
  rcases mem_mbind h with h | ⟨g2, _, h⟩
  · obtain ⟨i, hi, g0, h0⟩ := mem_mseq _ _ _ _ h
    have hki := (mem_idxList.1 hi).1
    unfold ldltColStep at h0
    cases h1 : g0 k k <;> cases h2 : g0 i k <;> simp [h1, h2] at h0
    rcases h0 with rfl | rfl
    · exact ⟨by simp [ldltEvTarget]; omega, by intro k' a b hc; cases hc⟩
    · exact ⟨by simp [ldltEvTarget]; omega, by intro k' a b hc; cases hc⟩
  · obtain ⟨i, hi, g0, h0⟩ := mem_mseq _ _ _ _ h
    obtain ⟨j, hj, g1', h1'⟩ := mem_mseq _ _ _ _ h0
    have hki := mem_idxList.1 hi
    have hkj := mem_idxList.1 hj
    unfold ldltUpdate at h1'
    by_cases hij : i = j
    · simp only [if_pos hij] at h1'
      cases c1 : g1' i i <;> cases c2 : g1' i k <;> cases c3 : g1' k k <;>
        simp [c1, c2, c3] at h1'
      subst h1'
      exact ⟨by simp [ldltEvTarget], by intro k' a b hc; cases hc⟩
    · simp only [if_neg hij] at h1'
      cases c1 : g1' i j <;> cases c2 : g1' i k <;> cases c3 : g1' k k <;> cases c4 : g1' j k <;>
        simp [c1, c2, c3, c4] at h1'
      subst h1'
      refine ⟨by simp [ldltEvTarget]; omega, ?_⟩
      intro k' a b hc
      cases hc
      omega

/-- C4.  During `recursiveLdltDecomposition`, every primitive call writes
a child block `(i, j)` with `j ≤ i` — the trailing update calls
`mdmtProduct` exactly on diagonal children and `mdntProduct` exactly on
strictly-lower ones, as the successful trace shows — and every child
block strictly above the diagonal is left unchanged by the whole
factorization. -/
theorem recursiveLdltDecomposition_lower_only (n : Nat) (g : Grid) :
    (∀ e ∈ (recursiveLdltDecomposition n g).2,
      (ldltEvTarget e).2 ≤ (ldltEvTarget e).1 ∧ ∀ k' i j, e = .mdnt k' i j → j < i)
    ∧ ((recursiveLdltDecomposition n g).1.isSome →
        (recursiveLdltDecomposition n g).2 = ldltTraceSpec n)
    ∧ (∀ g', (recursiveLdltDecomposition n g).1 = some g' →
        ∀ i j, i < j → g' i j = g i j) := by
  refine ⟨?_, ?_, ?_⟩
  · intro e he
    unfold recursiveLdltDecomposition at he
    obtain ⟨k, hk, g0, h0⟩ := mem_mseq (ldltStep n) _ _ _ he
    exact ldltStep_ev_shape h0
  · intro hs
    unfold recursiveLdltDecomposition at hs ⊢
    exact mseq_trace_of_success (ldltStep n) (ldltStepTrace n)
      (fun k g hk => ldltStep_trace hk) _ g hs
  · intro g' h
    unfold recursiveLdltDecomposition at h
    exact mseq_frame (ldltStep n) _ (fun k _ g0 g0' h0 => ldltStep_frame h0) g g' h

/-- Concrete lower-triangular 2x2 child grid for the C4 witness:
children `(0,0)`, `(1,0)`, `(1,1)` present, `(0,1)` absent. -/
def ldltG0 : Grid := fun i j => if j ≤ i ∧ i < 2 then some (.init i j) else none

theorem ldltG0_run_isSome : (recursiveLdltDecomposition 2 ldltG0).1.isSome := by decide

/-- Witness for C4 at the concrete 2x2 grid `ldltG0`. -/
theorem recursiveLdltDecomposition_lower_only_witness :
    (recursiveLdltDecomposition 2 ldltG0).2 = ldltTraceSpec 2
    ∧ ((recursiveLdltDecomposition 2 ldltG0).1.get ldltG0_run_isSome) 0 1 = ldltG0 0 1 := by
  constructor
  · exact (recursiveLdltDecomposition_lower_only 2 ldltG0).2.1 ldltG0_run_isSome
  · exact (recursiveLdltDecomposition_lower_only 2 ldltG0).2.2 _
      (Option.some_get ldltG0_run_isSome).symm 0 1 (by decide)

/-! ## Recursive triangular solves

`recursiveSolveUpperTriangularRight` (recursion.cpp:77-100) and
`recursiveSolveLowerTriangularLeft` (recursion.cpp:134-158) guard their
loop bodies on the presence of the right-hand-side child and of the
off-diagonal triangular children (`continue` / `if` tests), dereferencing
only the diagonal triangular child unguarded.
`recursiveSolveUpperTriangularLeft` (recursion.cpp:285-309) has no
presence checks at all. -/

/-- Body of the `i` loop of `recursiveSolveUpperTriangularRight` for
block-row `k` (recursion.cpp:92-98): skip when `b(k,i)` is absent,
otherwise apply the guarded gemm updates for `j < i` and solve the
diagonal system (which dereferences `u(i,i)` unguarded). -/
def utrCell (u : Grid) (unit ls : Bool) (k i : Nat) (b : Grid) : Option Grid :=
  match b k i with
  | none => some b
  | some _ =>
    let b1 := (idxList 0 i).foldl (fun b j =>
      match b k j, (if ls then u i j else u j i) with
      | some bkj, some uc =>
        match b k i with
        | some bki =>
          setCell b k i (.gemm 'N' (if ls then 'T' else 'N') .mone bkj uc .pone bki)
        | none => b
      | _, _ => b) b
    match u i i, b1 k i with
    | some uii, some bki =>
      some (setCell b1 k i (.solveUpperTriangularRight uii bki unit ls))
    | _, _ => none

/-- `RecursionMatrix::recursiveSolveUpperTriangularRight` with
`n = me()->nrChildRow()` and `bRows = b->nrChildRow()`. -/
def recursiveSolveUpperTriangularRight (n bRows : Nat) (u : Grid) (unit ls : Bool)
    (b : Grid) : Option Grid :=
  oseq (fun k b => oseq (utrCell u unit ls k) (idxList 0 n) b) (idxList 0 bRows) b

/-- Body of the `i` loop of `recursiveSolveLowerTriangularLeft` for
block-column `k` (recursion.cpp:150-156). -/
def ltlCell (l : Grid) (unit : Bool) (k i : Nat) (b : Grid) : Option Grid :=
  match b i k with
  | none => some b
  | some _ =>
    let b1 := (idxList 0 i).foldl (fun b j =>
      match l i j, b j k with
      | some lij, some bjk =>
        match b i k with
        | some bik => setCell b i k (.gemm 'N' 'N' .mone lij bjk .pone bik)
        | none => b
      | _, _ => b) b
    match l i i, b1 i k with
    | some lii, some bik => some (setCell b1 i k (.solveLowerTriangularLeft lii bik unit))
    | _, _ => none

/-- `RecursionMatrix::recursiveSolveLowerTriangularLeft` with
`n = me()->nrChildRow()` and `bCols = b->nrChildCol()`. -/
def recursiveSolveLowerTriangularLeft (n bCols : Nat) (l : Grid) (unit : Bool)
    (b : Grid) : Option Grid :=
  oseq (fun k b => oseq (ltlCell l unit k) (idxList 0 n) b) (idxList 0 bCols) b

/-- Body of the descending `i` loop of `recursiveSolveUpperTriangularLeft`
for block-column `k` (recursion.cpp:298-305): solve the `i`-th diagonal
system, then update every `b(j,k)`, `j < i`; all dereferences are
unguarded. -/
def utlCell (u : Grid) (unit ls : Bool) (k i : Nat) (b : Grid) : Option Grid :=
  match u i i, b i k with
  | some uii, some bik =>
    oseq (fun j b =>
      match (if ls then u i j else u j i), b j k, b i k with
      | some uji, some bjk, some bik2 =>
        some (setCell b j k (.gemm (if ls then 'T' else 'N') 'N' .mone uji bik2 .pone bjk))
      | _, _, _ => none) (idxList 0 i)
      (setCell b i k (.solveUpperTriangularLeft uii bik unit ls))
  | _, _ => none

/-- `RecursionMatrix::recursiveSolveUpperTriangularLeft` with
`n = me()->nrChildRow()` and `bCols = b->nrChildCol()`; the `i` loop runs
from `n-1` down to `0`. -/
def recursiveSolveUpperTriangularLeft (n bCols : Nat) (u : Grid) (unit ls : Bool)
    (b : Grid) : Option Grid :=
  oseq (fun k b => oseq (utlCell u unit ls k) ((idxList 0 n).reverse) b) (idxList 0 bCols) b

/-! ### Claim C3: spec rendering of the blockwise TRSM-R -/

/-- Spec treatment of cell `(k, i)`, from the spec's words: subtract from
`B[k,i]` the contributions `B[k,j] * U[j,i]` (with `U[i,j]` transposed in
place of `U[j,i]` when `lowerStored`) over the `j < i` whose operands are
present, then solve the diagonal system `B[k,i] * U[i,i] = B[k,i]` in
place; a `B[k,i]` that is absent is skipped. -/
def utrCellSpec (u : Grid) (unit ls : Bool) (k i : Nat) (b : Grid) : Option Grid :=
  match b k i with
  | none => some b
  | some bki0 =>
    let ops := (idxList 0 i).filterMap (fun j =>
      match b k j, (if ls then u i j else u j i) with
      | some bkj, some uc => some (bkj, uc)
      | _, _ => none)
    let v := ops.foldl (fun v p =>
      .gemm 'N' (if ls then 'T' else 'N') .mone p.1 p.2 .pone v) bki0
    (u i i).map fun uii => setCell b k i (.solveUpperTriangularRight uii v unit ls)

/-- The spec's block TRSM-R: block-rows of `B` outermost, then `i`
ascending. -/
def solveUpperTriangularRightSpec (n bRows : Nat) (u : Grid) (unit ls : Bool)
    (b : Grid) : Option Grid :=
  oseq (fun k b => oseq (utrCellSpec u unit ls k) (idxList 0 n) b) (idxList 0 bRows) b

theorem setCell_self {g : Grid} {i j : Nat} {v : MatExpr} (h : g i j = some v) :
    setCell g i j v = g := by
  funext a b
  by_cases hab : a = i ∧ b = j
  · rw [setCell, if_pos hab, hab.1, hab.2, h]
  · exact setCell_other _ _ _ _ _ _ hab

theorem setCell_setCell (g : Grid) (i j : Nat) (v w : MatExpr) :
    setCell (setCell g i j v) i j w = setCell g i j w := by
  funext a b
  by_cases hab : a = i ∧ b = j
  · rw [setCell, if_pos hab, setCell, if_pos hab]
  · rw [setCell_other _ _ _ _ _ _ hab, setCell_other _ _ _ _ _ _ hab,
      setCell_other _ _ _ _ _ _ hab]

theorem utr_inner_fold (u : Grid) (ls : Bool) (k i : Nat) :
    ∀ (js : List Nat), (∀ j ∈ js, j ≠ i) → ∀ (b : Grid) (v : MatExpr), b k i = some v →
    (js.foldl (fun b j =>
      match b k j, (if ls then u i j else u j i) with
      | some bkj, some uc =>
        match b k i with
        | some bki =>
          setCell b k i (.gemm 'N' (if ls then 'T' else 'N') .mone bkj uc .pone bki)
        | none => b
      | _, _ => b) b)
    = setCell b k i ((js.filterMap (fun j =>
        match b k j, (if ls then u i j else u j i) with
        | some bkj, some uc => some (bkj, uc)
        | _, _ => none)).foldl (fun v p =>
          MatExpr.gemm 'N' (if ls then 'T' else 'N') .mone p.1 p.2 .pone v) v) := by
  intro js
  induction js with
  | nil =>
    intro _ b v hv
    simp only [List.foldl_nil, List.filterMap_nil]
    exact (setCell_self hv).symm
  | cons j js ih =>
    intro hne b v hv
    have hji : j ≠ i := hne j (List.mem_cons_self j js)
    simp only [List.foldl_cons, List.filterMap_cons]
    cases hbkj : b k j with
    | none =>
      simp only [hbkj]
      exact ih (fun j hj => hne j (List.mem_cons_of_mem _ hj)) b v hv
    | some bkj =>
      cases huc : (if ls then u i j else u j i) with
      | none =>
        simp only [hbkj, huc]
        exact ih (fun j hj => hne j (List.mem_cons_of_mem _ hj)) b v hv
      | some uc =>
        simp only [hbkj, huc, hv, List.foldl_cons]
        set w := MatExpr.gemm 'N' (if ls then 'T' else 'N') .mone bkj uc .pone v with hw
        set b2 := setCell b k i w with hb2
        have hb2ki : b2 k i = some w := setCell_same _ _ _ _
        rw [ih (fun j hj => hne j (List.mem_cons_of_mem _ hj)) b2 w hb2ki]
        have hfm : (js.filterMap (fun j2 =>
            match b2 k j2, (if ls then u i j2 else u j2 i) with
            | some bkj, some uc => some (bkj, uc)
            | _, _ => none))
          = js.filterMap (fun j2 =>
            match b k j2, (if ls then u i j2 else u j2 i) with
            | some bkj, some uc => some (bkj, uc)
            | _, _ => none) := by
          apply List.filterMap_congr
          intro j2 hj2
          rw [hb2, setCell_other _ _ _ _ _ _
            (by rintro ⟨_, hc⟩; exact hne j2 (List.mem_cons_of_mem _ hj2) hc)]
        rw [hfm, hb2, setCell_setCell]

/-- One cell treatment of the code equals the spec's. -/
theorem utrCell_eq_spec (u : Grid) (unit ls : Bool) (k i : Nat) (b : Grid) :
    utrCell u unit ls k i b = utrCellSpec u unit ls k i b := by
  unfold utrCell utrCellSpec
  cases hbki : b k i with
  | none => rfl
  | some bki0 =>
    simp only []
    rw [utr_inner_fold u ls k i (idxList 0 i)
      (fun j hj => by have := (mem_idxList.1 hj).2; omega) b bki0 hbki]
    rw [setCell_same]
    cases huii : u i i with
    | none => rfl
    | some uii => simp [setCell_setCell]

theorem oseq_congr (f f2 : Nat → Grid → Option Grid) (h : ∀ i g, f i g = f2 i g) :
    ∀ (l : List Nat) (g : Grid), oseq f l g = oseq f2 l g := by
  intro l
  induction l with
  | nil => intro g; rfl
  | cons i is ih =>
    intro g
    simp only [oseq, h i g]
    cases f2 i g with
    | some g1 => simp only [Option.bind]; exact ih g1
    | none => rfl

/-- C3.  `recursiveSolveUpperTriangularRight` solves `X * U = B` exactly
as the spec says: for each block-row `k` of `B` and each `i` in ascending
order with `B[k,i]` present, it subtracts from `B[k,i]` the contributions
`B[k,j] * U[j,i]` (`U[i,j]` transposed when `lowerStored`) for the `j < i`
with both operands present, and then solves the diagonal system
`B[k,i] * U[i,i] = B[k,i]` in place. -/
theorem recursiveSolveUpperTriangularRight_eq_spec (n bRows : Nat) (u : Grid)
    (unit ls : Bool) (b : Grid) :
    recursiveSolveUpperTriangularRight n bRows u unit ls b =
      solveUpperTriangularRightSpec n bRows u unit ls b := by
  unfold recursiveSolveUpperTriangularRight solveUpperTriangularRightSpec
  refine oseq_congr _ _ ?_ _ b
  intro k g
  refine oseq_congr _ _ ?_ _ g
  intro i g2
  exact utrCell_eq_spec u unit ls k i g2

/-! ### Claim C8: presence requirements of the three solves -/

theorem setCell_presence {g : Grid} {i j : Nat} (hij : (g i j).isSome = true) (v : MatExpr) :
    ∀ a b, ((setCell g i j v) a b).isSome = (g a b).isSome := by
  intro c d
  by_cases hcd : c = i ∧ d = j
  · obtain ⟨hc, hd⟩ := hcd
    subst hc
    subst hd
    rw [setCell_same, hij]
    rfl
  · rw [setCell_other _ _ _ _ _ _ hcd]

theorem oseq_preserves (f : Nat → Grid → Option Grid)
    (hp : ∀ i g g', f i g = some g' → ∀ a b, (g' a b).isSome = (g a b).isSome) :
    ∀ (l : List Nat) (g g' : Grid), oseq f l g = some g' →
      ∀ a b, (g' a b).isSome = (g a b).isSome := by
  intro l
  induction l with
  | nil =>
    intro g g' h a b
    simp only [oseq] at h
    cases h
    rfl
  | cons i is ih =>
    intro g g' h a b
    simp only [oseq] at h
    cases hfi : f i g with
    | some g1 =>
      rw [hfi] at h
      have h2 : oseq f is g1 = some g' := h
      rw [ih g1 g' h2 a b, hp i g g1 hfi a b]
    | none =>
      rw [hfi] at h
      exact Option.noConfusion h

theorem oseq_isSome_iff (f : Nat → Grid → Option Grid) (cond : Nat → Grid → Prop)
    (hcond : ∀ i g, (f i g).isSome = true ↔ cond i g)
    (hstable : ∀ i i2 g g', f i2 g = some g' → (cond i g' ↔ cond i g)) :
    ∀ (l : List Nat) (g : Grid), (oseq f l g).isSome = true ↔ ∀ i ∈ l, cond i g := by
  intro l
  induction l with
  | nil =>
    intro g
    simp [oseq]
  | cons i is ih =>
    intro g
    simp only [oseq]
    constructor
    · intro hs
      cases hfi : f i g with
      | none =>
        rw [hfi] at hs
        exact Bool.noConfusion hs
      | some g1 =>
        rw [hfi] at hs
        have hs2 : (oseq f is g1).isSome = true := hs
        intro j hj
        rcases List.mem_cons.1 hj with rfl | hj2
        · exact (hcond j g).1 (by rw [hfi]; rfl)
        · exact (hstable j i g g1 hfi).1 ((ih g1).1 hs2 j hj2)
    · intro hc
      have h1 : cond i g := hc i (List.mem_cons_self i is)
      cases hfi : f i g with
      | none =>
        have h2 := (hcond i g).2 h1
        rw [hfi] at h2
        exact Bool.noConfusion h2
      | some g1 =>
        have h3 : (oseq f is g1).isSome = true :=
          (ih g1).2 (fun j hj => (hstable j i g g1 hfi).2 (hc j (List.mem_cons_of_mem _ hj)))
        exact h3

theorem forall_idxList {P : Nat → Prop} {n : Nat} :
    (∀ i ∈ idxList 0 n, P i) ↔ ∀ i, i < n → P i := by
  constructor
  · intro h i hi
    exact h i (mem_idxList.2 ⟨Nat.zero_le i, by omega⟩)
  · intro h i hi
    exact h i (by have := mem_idxList.1 hi; omega)

theorem utrCell_presence {u : Grid} {unit ls : Bool} {k i : Nat} {b b2 : Grid}
    (h : utrCell u unit ls k i b = some b2) :
    ∀ a c, (b2 a c).isSome = (b a c).isSome := by
  unfold utrCell at h
  cases hbki : b k i with
  | none =>
    simp only [hbki, Option.some.injEq] at h
    subst h
    intro a c
    rfl
  | some bki0 =>
    simp only [hbki] at h
    rw [utr_inner_fold u ls k i (idxList 0 i)
      (fun j hj => by have := (mem_idxList.1 hj).2; omega) b bki0 hbki] at h
    rw [setCell_same] at h
    cases huii : u i i with
    | none =>
      simp only [huii] at h
      exact Option.noConfusion h
    | some uii =>
      simp only [huii, Option.some.injEq] at h
      subst h
      intro a c
      rw [setCell_setCell]
      exact setCell_presence (by rw [hbki]; rfl) _ a c

theorem utrCell_isSome_iff (u : Grid) (unit ls : Bool) (k i : Nat) (b : Grid) :
    (utrCell u unit ls k i b).isSome = true ↔
      ((b k i).isSome = true → (u i i).isSome = true) := by
  unfold utrCell
  cases hbki : b k i with
  | none => simp
  | some bki0 =>
    simp only []
    rw [utr_inner_fold u ls k i (idxList 0 i)
      (fun j hj => by have := (mem_idxList.1 hj).2; omega) b bki0 hbki]
    rw [setCell_same]
    cases huii : u i i with
    | none => simp
    | some uii => simp

theorem ltl_inner_fold (l : Grid) (k i : Nat) :
    ∀ (js : List Nat), (∀ j ∈ js, j ≠ i) → ∀ (b : Grid) (v : MatExpr), b i k = some v →
    (js.foldl (fun b j =>
      match l i j, b j k with
      | some lij, some bjk =>
        match b i k with
        | some bik => setCell b i k (.gemm 'N' 'N' .mone lij bjk .pone bik)
        | none => b
      | _, _ => b) b)
    = setCell b i k ((js.filterMap (fun j =>
        match l i j, b j k with
        | some lij, some bjk => some (lij, bjk)
        | _, _ => none)).foldl (fun v p =>
          MatExpr.gemm 'N' 'N' .mone p.1 p.2 .pone v) v) := by
  intro js
  induction js with
  | nil =>
    intro _ b v hv
    simp only [List.foldl_nil, List.filterMap_nil]
    exact (setCell_self hv).symm
  | cons j js ih =>
    intro hne b v hv
    simp only [List.foldl_cons, List.filterMap_cons]
    cases hlij : l i j with
    | none =>
      simp only [hlij]
      exact ih (fun j hj => hne j (List.mem_cons_of_mem _ hj)) b v hv
    | some lij =>
      cases hbjk : b j k with
      | none =>
        simp only [hlij, hbjk]
        exact ih (fun j hj => hne j (List.mem_cons_of_mem _ hj)) b v hv
      | some bjk =>
        simp only [hlij, hbjk, hv, List.foldl_cons]
        set w := MatExpr.gemm 'N' 'N' .mone lij bjk .pone v with hw
        set b2 := setCell b i k w with hb2
        have hb2ik : b2 i k = some w := setCell_same _ _ _ _
        rw [ih (fun j hj => hne j (List.mem_cons_of_mem _ hj)) b2 w hb2ik]
        have hfm : (js.filterMap (fun j2 =>
            match l i j2, b2 j2 k with
            | some lij, some bjk => some (lij, bjk)
            | _, _ => none))
          = js.filterMap (fun j2 =>
            match l i j2, b j2 k with
            | some lij, some bjk => some (lij, bjk)
            | _, _ => none) := by
          apply List.filterMap_congr
          intro j2 hj2
          rw [hb2, setCell_other _ _ _ _ _ _
            (by rintro ⟨hc, _⟩; exact hne j2 (List.mem_cons_of_mem _ hj2) hc)]
        rw [hfm, hb2, setCell_setCell]

theorem ltlCell_presence {l : Grid} {unit : Bool} {k i : Nat} {b b2 : Grid}
    (h : ltlCell l unit k i b = some b2) :
    ∀ a c, (b2 a c).isSome = (b a c).isSome := by
  unfold ltlCell at h
  cases hbik : b i k with
  | none =>
    simp only [hbik, Option.some.injEq] at h
    subst h
    intro a c
    rfl
  | some bik0 =>
    simp only [hbik] at h
    rw [ltl_inner_fold l k i (idxList 0 i)
      (fun j hj => by have := (mem_idxList.1 hj).2; omega) b bik0 hbik] at h
    rw [setCell_same] at h
    cases hlii : l i i with
    | none =>
      simp only [hlii] at h
      exact Option.noConfusion h
    | some lii =>
      simp only [hlii, Option.some.injEq] at h
      subst h
      intro a c
      rw [setCell_setCell]
      exact setCell_presence (by rw [hbik]; rfl) _ a c

theorem ltlCell_isSome_iff (l : Grid) (unit : Bool) (k i : Nat) (b : Grid) :
    (ltlCell l unit k i b).isSome = true ↔
      ((b i k).isSome = true → (l i i).isSome = true) := by
  unfold ltlCell
  cases hbik : b i k with
  | none => simp
  | some bik0 =>
    simp only []
    rw [ltl_inner_fold l k i (idxList 0 i)
      (fun j hj => by have := (mem_idxList.1 hj).2; omega) b bik0 hbik]
    rw [setCell_same]
    cases hlii : l i i with
    | none => simp
    | some lii => simp

/-! Upper-left cell: every dereference is unguarded; success needs the
diagonal child, the right-hand-side child, and (for `j < i`) every
off-diagonal triangular child and right-hand-side sibling. -/

theorem utlCell_body_presence {u : Grid} {ls : Bool} {k i : Nat} :
    ∀ (j : Nat) (g g2 : Grid),
      (match (if ls then u i j else u j i), g j k, g i k with
        | some uji, some bjk, some bik2 =>
          some (setCell g j k (.gemm (if ls then 'T' else 'N') 'N' .mone uji bik2 .pone bjk))
        | _, _, _ => none) = some g2 →
      ∀ a c, (g2 a c).isSome = (g a c).isSome := by
  intro j g g2 h a c
  cases h1 : (if ls then u i j else u j i) with
  | none =>
    rw [h1] at h
    exact Option.noConfusion h
  | some uji =>
    cases h2 : g j k with
    | none =>
      rw [h1, h2] at h
      exact Option.noConfusion h
    | some bjk =>
      cases h3 : g i k with
      | none =>
        rw [h1, h2, h3] at h
        exact Option.noConfusion h
      | some bik2 =>
        rw [h1, h2, h3] at h
        simp only [Option.some.injEq] at h
        subst h
        exact setCell_presence (by rw [h2]; rfl) _ a c

theorem utlCell_presence {u : Grid} {unit ls : Bool} {k i : Nat} {b b2 : Grid}
    (h : utlCell u unit ls k i b = some b2) :
    ∀ a c, (b2 a c).isSome = (b a c).isSome := by
  unfold utlCell at h
  cases huii : u i i with
  | none =>
    simp only [huii] at h
    exact Option.noConfusion h
  | some uii =>
    cases hbik : b i k with
    | none =>
      simp only [huii, hbik] at h
      exact Option.noConfusion h
    | some bik =>
      simp only [huii, hbik] at h
      intro a c
      rw [oseq_preserves _ (fun j g g2 hj => utlCell_body_presence j g g2 hj) _ _ _ h a c]
      exact setCell_presence (by rw [hbik]; rfl) _ a c

theorem utlCell_isSome_iff (u : Grid) (unit ls : Bool) (k i : Nat) (b : Grid) :
    (utlCell u unit ls k i b).isSome = true ↔
      ((u i i).isSome = true ∧ (b i k).isSome = true ∧
        ∀ j, j < i →
          ((if ls then u i j else u j i).isSome = true ∧ (b j k).isSome = true)) := by
  unfold utlCell
  cases huii : u i i with
  | none =>
    simp
  | some uii =>
    cases hbik : b i k with
    | none =>
      simp
    | some bik =>
      simp only []
      have hiff := oseq_isSome_iff
        (fun j g =>
          match (if ls then u i j else u j i), g j k, g i k with
          | some uji, some bjk, some bik2 =>
            some (setCell g j k (.gemm (if ls then 'T' else 'N') 'N' .mone uji bik2 .pone bjk))
          | _, _, _ => none)
        (fun j g => (if ls then u i j else u j i).isSome = true ∧
          (g j k).isSome = true ∧ (g i k).isSome = true)
        (by
          intro j g
          cases h1 : (if ls then u i j else u j i) <;> cases h2 : g j k <;>
            cases h3 : g i k <;> simp [h1, h2, h3])
        (by
          intro j j2 g g2 hj
          have hp := utlCell_body_presence j2 g g2 hj
          simp only []
          rw [hp j k, hp i k])
        (idxList 0 i)
        (setCell b i k (.solveUpperTriangularLeft uii bik unit ls))
      rw [hiff]
      have hpres := setCell_presence (g := b) (i := i) (j := k) (by rw [hbik]; rfl)
        (.solveUpperTriangularLeft uii bik unit ls)
      constructor
      · intro hc
        refine ⟨rfl, rfl, ?_⟩
        intro j hj
        have h2 := hc j (mem_idxList.2 ⟨Nat.zero_le j, by omega⟩)
        rw [hpres j k] at h2
        exact ⟨h2.1, h2.2.1⟩
      · intro hc j hj
        have hji := mem_idxList.1 hj
        refine ⟨(hc.2.2 j (by omega)).1, ?_, ?_⟩
        · rw [hpres j k]
          exact (hc.2.2 j (by omega)).2
        · rw [hpres i k]
          rw [hbik]
          rfl

theorem utRight_isSome_iff (n bRows : Nat) (u : Grid) (unit ls : Bool) (b : Grid) :
    (recursiveSolveUpperTriangularRight n bRows u unit ls b).isSome = true ↔
      ∀ k, k < bRows → ∀ i, i < n →
        ((b k i).isSome = true → (u i i).isSome = true) := by
  unfold recursiveSolveUpperTriangularRight
  have hinner : ∀ (k : Nat) (g : Grid),
      ((oseq (utrCell u unit ls k) (idxList 0 n) g).isSome = true ↔
        ∀ i ∈ idxList 0 n, ((g k i).isSome = true → (u i i).isSome = true)) := by
    intro k g
    refine oseq_isSome_iff _ _ (fun i g => utrCell_isSome_iff u unit ls k i g) ?_ _ g
    intro i i2 g g2 h
    have hp := utrCell_presence h
    rw [hp k i]
  have houter := oseq_isSome_iff
    (fun k b => oseq (utrCell u unit ls k) (idxList 0 n) b)
    (fun k g => ∀ i ∈ idxList 0 n, ((g k i).isSome = true → (u i i).isSome = true))
    hinner
    (by
      intro k k2 g g2 h
      have hp := oseq_preserves _ (fun i g g2 hi => utrCell_presence hi) _ _ _ h
      exact forall_congr' (fun i => forall_congr' (fun hi => by rw [hp k i])))
    (idxList 0 bRows) b
  rw [houter]
  constructor
  · intro h k hk i hi
    exact h k (mem_idxList.2 ⟨Nat.zero_le k, by omega⟩) i
      (mem_idxList.2 ⟨Nat.zero_le i, by omega⟩)
  · intro h k hk i hi
    exact h k (by have := mem_idxList.1 hk; omega) i (by have := mem_idxList.1 hi; omega)

theorem ltLeft_isSome_iff (n bCols : Nat) (l : Grid) (unit : Bool) (b : Grid) :
    (recursiveSolveLowerTriangularLeft n bCols l unit b).isSome = true ↔
      ∀ k, k < bCols → ∀ i, i < n →
        ((b i k).isSome = true → (l i i).isSome = true) := by
  unfold recursiveSolveLowerTriangularLeft
  have hinner : ∀ (k : Nat) (g : Grid),
      ((oseq (ltlCell l unit k) (idxList 0 n) g).isSome = true ↔
        ∀ i ∈ idxList 0 n, ((g i k).isSome = true → (l i i).isSome = true)) := by
    intro k g
    refine oseq_isSome_iff _ _ (fun i g => ltlCell_isSome_iff l unit k i g) ?_ _ g
    intro i i2 g g2 h
    have hp := ltlCell_presence h
    rw [hp i k]
  have houter := oseq_isSome_iff
    (fun k b => oseq (ltlCell l unit k) (idxList 0 n) b)
    (fun k g => ∀ i ∈ idxList 0 n, ((g i k).isSome = true → (l i i).isSome = true))
    hinner
    (by
      intro k k2 g g2 h
      have hp := oseq_preserves _ (fun i g g2 hi => ltlCell_presence hi) _ _ _ h
      exact forall_congr' (fun i => forall_congr' (fun hi => by rw [hp i k])))
    (idxList 0 bCols) b
  rw [houter]
  constructor
  · intro h k hk i hi
    exact h k (mem_idxList.2 ⟨Nat.zero_le k, by omega⟩) i
      (mem_idxList.2 ⟨Nat.zero_le i, by omega⟩)
  · intro h k hk i hi
    exact h k (by have := mem_idxList.1 hk; omega) i (by have := mem_idxList.1 hi; omega)

theorem utLeft_isSome_iff (n bCols : Nat) (u : Grid) (unit ls : Bool) (b : Grid) :
    (recursiveSolveUpperTriangularLeft n bCols u unit ls b).isSome = true ↔
      ∀ k, k < bCols → ∀ i, i < n →
        ((u i i).isSome = true ∧ (b i k).isSome = true ∧
          ∀ j, j < i →
            ((if ls then u i j else u j i).isSome = true ∧ (b j k).isSome = true)) := by
  unfold recursiveSolveUpperTriangularLeft
  have hinner : ∀ (k : Nat) (g : Grid),
      ((oseq (utlCell u unit ls k) ((idxList 0 n).reverse) g).isSome = true ↔
        ∀ i ∈ (idxList 0 n).reverse,
          ((u i i).isSome = true ∧ (g i k).isSome = true ∧
            ∀ j, j < i →
              ((if ls then u i j else u j i).isSome = true ∧ (g j k).isSome = true))) := by
    intro k g
    refine oseq_isSome_iff _ _ (fun i g => utlCell_isSome_iff u unit ls k i g) ?_ _ g
    intro i i2 g g2 h
    have hp := utlCell_presence h
    constructor
    · intro hc
      refine ⟨hc.1, by rw [hp i k] at hc; exact hc.2.1, ?_⟩
      intro j hj
      have h2 := hc.2.2 j hj
      rw [hp j k] at h2
      exact h2
    · intro hc
      refine ⟨hc.1, by rw [hp i k]; exact hc.2.1, ?_⟩
      intro j hj
      have h2 := hc.2.2 j hj
      rw [hp j k]
      exact h2
  have houter := oseq_isSome_iff
    (fun k b => oseq (utlCell u unit ls k) ((idxList 0 n).reverse) b)
    (fun k g => ∀ i ∈ (idxList 0 n).reverse,
      ((u i i).isSome = true ∧ (g i k).isSome = true ∧
        ∀ j, j < i →
          ((if ls then u i j else u j i).isSome = true ∧ (g j k).isSome = true)))
    hinner
    (by
      intro k k2 g g2 h
      have hp := oseq_preserves _ (fun i g g2 hi => utlCell_presence hi) _ _ _ h
      refine forall_congr' (fun i => forall_congr' (fun hi => ?_))
      constructor
      · intro hc
        refine ⟨hc.1, by rw [hp i k] at hc; exact hc.2.1, ?_⟩
        intro j hj
        have h2 := hc.2.2 j hj
        rw [hp j k] at h2
        exact h2
      · intro hc
        refine ⟨hc.1, by rw [hp i k]; exact hc.2.1, ?_⟩
        intro j hj
        have h2 := hc.2.2 j hj
        rw [hp j k]
        exact h2)
    (idxList 0 bCols) b
  rw [houter]
  constructor
  · intro h k hk i hi
    exact h k (mem_idxList.2 ⟨Nat.zero_le k, by omega⟩) i
      (List.mem_reverse.2 (mem_idxList.2 ⟨Nat.zero_le i, by omega⟩))
  · intro h k hk i hi
    exact h k (by have := mem_idxList.1 hk; omega) i
      (by have := mem_idxList.1 (List.mem_reverse.1 hi); omega)

/-- C8.  `recursiveSolveUpperTriangularLeft` succeeds exactly when every
right-hand-side child `b(i,k)` and every needed triangular child (the
diagonal `u(i,i)` and, for `j < i`, `u(i,j)` when `lowerStored` else
`u(j,i)`) are present — it checks nothing and crashes on any absent
child — whereas `recursiveSolveUpperTriangularRight` and
`recursiveSolveLowerTriangularLeft` succeed exactly when the diagonal
triangular child is present wherever the corresponding right-hand-side
child is, skipping absent right-hand-side children and tolerating absent
off-diagonal triangular children. -/
theorem solve_presence_requirements (n bc : Nat) (u b : Grid) (unit ls : Bool) :
    ((recursiveSolveUpperTriangularLeft n bc u unit ls b).isSome = true ↔
      ∀ k, k < bc → ∀ i, i < n →
        ((u i i).isSome = true ∧ (b i k).isSome = true ∧
          ∀ j, j < i →
            ((if ls then u i j else u j i).isSome = true ∧ (b j k).isSome = true)))
    ∧ ((recursiveSolveUpperTriangularRight n bc u unit ls b).isSome = true ↔
      ∀ k, k < bc → ∀ i, i < n → ((b k i).isSome = true → (u i i).isSome = true))
    ∧ ((recursiveSolveLowerTriangularLeft n bc u unit b).isSome = true ↔
      ∀ k, k < bc → ∀ i, i < n → ((b i k).isSome = true → (u i i).isSome = true)) :=
  ⟨utLeft_isSome_iff n bc u unit ls b, utRight_isSome_iff n bc u unit ls b,
    ltLeft_isSome_iff n bc u unit b⟩

/-- Fully populated 2x2 triangular operand for the C8 witness. -/
def uG0 : Grid := fun i j => if i < 2 ∧ j < 2 then some (.init i j) else none

/-- Partially populated right-hand side for the C8 witness: only child
`(0,0)` present. -/
def bG0 : Grid := fun i j => if i = 0 ∧ j = 0 then some (.init 0 0) else none

/-- Witness for C8: on the same partially populated right-hand side, the
right solve succeeds (absent children skipped) while the left solve
crashes on the absent child `b(1,0)`. -/
theorem solve_presence_requirements_witness :
    (recursiveSolveUpperTriangularRight 2 1 uG0 false false bG0).isSome = true
    ∧ ¬((recursiveSolveUpperTriangularLeft 2 1 uG0 false false bG0).isSome = true) := by
  constructor
  · exact (solve_presence_requirements 2 1 uG0 bG0 false false).2.1.mpr (by decide)
  · intro hs
    have h := ((solve_presence_requirements 2 1 uG0 bG0 false false).1.mp hs 0 (by decide) 1
      (by decide)).2.1
    exact absurd h (by decide)

/-! ## Block inverse with value semantics (`recursion.cpp:202-249`)

`recursiveInverseNosym` has no presence guards, and its claim concerns
the values computed, so the children of the (square) Internal node are
modelled as elements of an arbitrary noncommutative ring, one per cell.
The function `inv` stands for the in-place `Mat::inverse()` applied to a
diagonal child, and `gemmNN` is the value semantics of a
`gemm('N','N', alpha, a, b, beta)` call. -/

section InverseModel

variable {R : Type} [Ring R]

/-- `this = alpha * (a * b) + beta * this`, the value computed by
`gemm('N','N', alpha, a, b, beta)`. -/
def gemmNN (alpha a b beta dest : R) : R := alpha * (a * b) + beta * dest

/-- Child grid with one ring element per cell. -/
def GridR (R : Type) : Type := Nat → Nat → R

def setR (g : GridR R) (i j : Nat) (v : R) : GridR R :=
  fun a b => if a = i ∧ b = j then v else g a b

omit [Ring R] in
theorem setR_same (g : GridR R) (i j : Nat) (v : R) : setR g i j v i j = v := by
  simp [setR]

omit [Ring R] in
theorem setR_other (g : GridR R) (i j a b : Nat) (v : R) (h : ¬(a = i ∧ b = j)) :
    setR g i j v a b = g a b := by
  simp only [setR, if_neg h]

/-- One iteration of the Gauss-Jordan loop of `recursiveInverseNosym`
(recursion.cpp:221-247); `nrChildRow() = nrChildCol() = n`.  The local
`x` of lines 228 and 243 (the temporary copy taken before the in-place
`gemm` with `beta = 0`) appears as the re-read of the old cell value. -/
def inverseStep (inv : R → R) (n k : Nat) (g : GridR R) : GridR R :=
  -- me()->get(k,k)->inverse();
  let g1 := setR g k k (inv (g k k))
  -- line k: Mkj <- Mkk^-1 * Mkj, through the temporary x = copy of Mkj
  let g2 := (idxList 0 n).foldl (fun g j =>
    if j ≠ k then setR g k j (gemmNN 1 (g k k) (g k j) 0 (g k j)) else g) g1
  -- the rest of the matrix: Mij <- Mij - Mik * Mkj
  let g3 := (idxList 0 n).foldl (fun g i =>
    (idxList 0 n).foldl (fun g j =>
      if i ≠ k ∧ j ≠ k then setR g i j (gemmNN (-1) (g i k) (g k j) 1 (g i j)) else g) g) g2
  -- column k: Mik <- -Mik * Mkk^-1, through the temporary x = copy of Mik
  (idxList 0 n).foldl (fun g i =>
    if i ≠ k then setR g i k (gemmNN (-1) (g i k) (g k k) 0 (g i k)) else g) g3

/-- `RecursionMatrix::recursiveInverseNosym`. -/
def recursiveInverseNosym (inv : R → R) (n : Nat) (g : GridR R) : GridR R :=
  (idxList 0 n).foldl (fun g k => inverseStep inv n k g) g

/-- Spec rendering of one Gauss-Jordan step (spec section 4.5, "Block
inverse"): 1. `M[k,k] <- M[k,k]^{-1}`; 2. for `j != k`:
`M[k,j] <- M[k,k]^{-1} * M[k,j]` (via temporary); 3. for `i != k, j != k`:
`M[i,j] -= M[i,k] * M[k,j]` with `M[k,j]` the updated value; 4. for
`i != k`: `M[i,k] <- -M[i,k] * M[k,k]^{-1}` (via temporary). -/
def inverseStepSpec (inv : R → R) (n k : Nat) (g : GridR R) : GridR R := fun i j =>
  if i < n ∧ j < n then
    if i = k ∧ j = k then inv (g k k)
    else if i = k then inv (g k k) * g k j
    else if j = k then -(g i k * inv (g k k))
    else g i j - g i k * (inv (g k k) * g k j)
  else g i j

/-- The spec's block Gauss-Jordan inverse. -/
def inverseNosymSpec (inv : R → R) (n : Nat) (g : GridR R) : GridR R :=
  (idxList 0 n).foldl (fun g k => inverseStepSpec inv n k g) g

/-! ### Loop characterizations of one Gauss-Jordan step -/

theorem invRow_loop (k : Nat) :
    ∀ (len s : Nat) (g : GridR R),
    ((idxList s len).foldl (fun g j =>
      if j ≠ k then setR g k j (gemmNN 1 (g k k) (g k j) 0 (g k j)) else g) g)
    = fun a b =>
        if a = k ∧ s ≤ b ∧ b < s + len ∧ b ≠ k
        then gemmNN 1 (g k k) (g k b) 0 (g k b)
        else g a b := by
  intro len
  induction len with
  | zero =>
    intro s g
    simp only [idxList, List.foldl_nil]
    funext a b
    rw [if_neg (by rintro ⟨_, h1, h2, _⟩; omega)]
  | succ m ih =>
    intro s g
    simp only [idxList, List.foldl_cons]
    by_cases hsk : s = k
    · rw [if_neg (by simpa using hsk), ih (s + 1) g]
      funext a b
      by_cases hab : a = k ∧ s + 1 ≤ b ∧ b < s + 1 + m ∧ b ≠ k
      · rw [if_pos hab, if_pos ⟨hab.1, by omega, by omega, hab.2.2.2⟩]
      · rw [if_neg hab,
          if_neg (by rintro ⟨h1, h2, h3, h4⟩; exact hab ⟨h1, by omega, by omega, h4⟩)]
    · rw [if_pos hsk]
      rw [ih (s + 1) (setR g k s (gemmNN 1 (g k k) (g k s) 0 (g k s)))]
      have hkk : setR g k s (gemmNN 1 (g k k) (g k s) 0 (g k s)) k k = g k k :=
        setR_other _ _ _ _ _ _ (by rintro ⟨_, hc⟩; exact hsk hc.symm)
      funext a b
      by_cases hab : a = k ∧ s ≤ b ∧ b < s + (m + 1) ∧ b ≠ k
      · obtain ⟨ha, hb1, hb2, hbk⟩ := hab
        by_cases hbs : b = s
        · rw [if_neg (by rintro ⟨_, hc, _⟩; omega)]
          subst ha
          subst hbs
          rw [setR_same, if_pos ⟨rfl, hb1, hb2, hbk⟩]
        · rw [if_pos ⟨ha, by omega, by omega, hbk⟩, hkk,
            setR_other _ _ _ _ _ _ (by rintro ⟨_, hc⟩; exact hbs hc),
            if_pos ⟨ha, hb1, hb2, hbk⟩]
      · rw [if_neg (by rintro ⟨h1, h2, h3, h4⟩; exact hab ⟨h1, by omega, by omega, h4⟩)]
        rw [if_neg hab]
        exact setR_other _ _ _ _ _ _
          (by rintro ⟨h1, h2⟩; exact hab ⟨h1, by omega, by omega, by omega⟩)

theorem invUpd_inner_loop (k i : Nat) :
    ∀ (len s : Nat) (g : GridR R),
    ((idxList s len).foldl (fun g j =>
      if i ≠ k ∧ j ≠ k then setR g i j (gemmNN (-1) (g i k) (g k j) 1 (g i j)) else g) g)
    = fun a b =>
        if a = i ∧ s ≤ b ∧ b < s + len ∧ i ≠ k ∧ b ≠ k
        then gemmNN (-1) (g i k) (g k b) 1 (g i b)
        else g a b := by
  intro len
  induction len with
  | zero =>
    intro s g
    simp only [idxList, List.foldl_nil]
    funext a b
    rw [if_neg (by rintro ⟨_, h1, h2, _⟩; omega)]
  | succ m ih =>
    intro s g
    simp only [idxList, List.foldl_cons]
    by_cases hg : i ≠ k ∧ s ≠ k
    · rw [if_pos hg]
      rw [ih (s + 1) (setR g i s (gemmNN (-1) (g i k) (g k s) 1 (g i s)))]
      have hik : setR g i s (gemmNN (-1) (g i k) (g k s) 1 (g i s)) i k = g i k :=
        setR_other _ _ _ _ _ _ (by rintro ⟨_, hc⟩; exact hg.2 hc.symm)
      have hkr : ∀ c, setR g i s (gemmNN (-1) (g i k) (g k s) 1 (g i s)) k c = g k c :=
        fun c => setR_other _ _ _ _ _ _ (by rintro ⟨hc, _⟩; exact hg.1 hc.symm)
      funext a b
      by_cases hab : a = i ∧ s ≤ b ∧ b < s + (m + 1) ∧ i ≠ k ∧ b ≠ k
      · obtain ⟨ha, hb1, hb2, hika, hbk⟩ := hab
        by_cases hbs : b = s
        · rw [if_neg (by rintro ⟨_, hc, _⟩; omega)]
          subst ha
          subst hbs
          rw [setR_same, if_pos ⟨rfl, hb1, hb2, hika, hbk⟩]
        · rw [if_pos ⟨ha, by omega, by omega, hika, hbk⟩, hik, hkr b,
            setR_other _ _ _ _ _ _ (by rintro ⟨_, hc⟩; exact hbs hc),
            if_pos ⟨ha, hb1, hb2, hika, hbk⟩]
      · rw [if_neg (by rintro ⟨h1, h2, h3, h4⟩; exact hab ⟨h1, by omega, by omega, h4⟩)]
        rw [if_neg hab]
        exact setR_other _ _ _ _ _ _
          (by rintro ⟨h1, h2⟩; exact hab ⟨h1, by omega, by omega, hg.1, by omega⟩)
    · rw [if_neg hg, ih (s + 1) g]
      funext a b
      by_cases hab : a = i ∧ s + 1 ≤ b ∧ b < s + 1 + m ∧ i ≠ k ∧ b ≠ k
      · rw [if_pos hab, if_pos ⟨hab.1, by omega, by omega, hab.2.2.2⟩]
      · rw [if_neg hab,
          if_neg (by
            rintro ⟨h1, h2, h3, h4, h5⟩
            rcases Nat.eq_or_lt_of_le h2 with hbs | hlt
            · exact hg ⟨h4, by omega⟩
            · exact hab ⟨h1, by omega, by omega, h4, h5⟩)]

theorem invUpd_outer_loop (k s0 len0 : Nat) :
    ∀ (len s : Nat) (g : GridR R),
    ((idxList s len).foldl (fun g i =>
      (idxList s0 len0).foldl (fun g j =>
        if i ≠ k ∧ j ≠ k then setR g i j (gemmNN (-1) (g i k) (g k j) 1 (g i j)) else g) g) g)
    = fun a b =>
        if (s ≤ a ∧ a < s + len) ∧ (s0 ≤ b ∧ b < s0 + len0) ∧ a ≠ k ∧ b ≠ k
        then gemmNN (-1) (g a k) (g k b) 1 (g a b)
        else g a b := by
  intro len
  induction len with
  | zero =>
    intro s g
    simp only [idxList, List.foldl_nil]
    funext a b
    rw [if_neg (by rintro ⟨⟨h1, h2⟩, _⟩; omega)]
  | succ m ih =>
    intro s g
    simp only [idxList, List.foldl_cons]
    rw [invUpd_inner_loop k s len0 s0 g, ih (s + 1)]
    funext a b
    by_cases hab : (s ≤ a ∧ a < s + (m + 1)) ∧ (s0 ≤ b ∧ b < s0 + len0) ∧ a ≠ k ∧ b ≠ k
    · obtain ⟨⟨ha1, ha2⟩, hb, hak, hbk⟩ := hab
      by_cases has : a = s
      · rw [if_neg (by rintro ⟨⟨hc, _⟩, _⟩; omega)]
        subst has
        rw [if_pos ⟨rfl, hb.1, hb.2, hak, hbk⟩]
        rw [if_pos ⟨⟨by omega, by omega⟩, hb, hak, hbk⟩]
      · rw [if_pos ⟨⟨by omega, by omega⟩, hb, hak, hbk⟩]
        have eak : (if a = s ∧ s0 ≤ k ∧ k < s0 + len0 ∧ s ≠ k ∧ k ≠ k
            then gemmNN (-1) (g s k) (g k k) 1 (g s k) else g a k) = g a k := by
          rw [if_neg (by rintro ⟨hc, _⟩; exact has hc)]
        have ekb : (if (k : Nat) = s ∧ s0 ≤ b ∧ b < s0 + len0 ∧ s ≠ k ∧ b ≠ k
            then gemmNN (-1) (g s k) (g k b) 1 (g s b) else g k b) = g k b := by
          rw [if_neg (by rintro ⟨hc, _, _, hc2, _⟩; exact hc2 hc.symm)]
        have eab : (if a = s ∧ s0 ≤ b ∧ b < s0 + len0 ∧ s ≠ k ∧ b ≠ k
            then gemmNN (-1) (g s k) (g k b) 1 (g s b) else g a b) = g a b := by
          rw [if_neg (by rintro ⟨hc, _⟩; exact has hc)]
        rw [eak, ekb, eab]
        rw [if_pos ⟨⟨by omega, by omega⟩, hb, hak, hbk⟩]
    · rw [if_neg hab]
      by_cases hcell : a = s ∧ s0 ≤ b ∧ b < s0 + len0 ∧ s ≠ k ∧ b ≠ k
      · rw [if_neg (by rintro ⟨⟨hc, _⟩, _⟩; omega), if_pos hcell]
        exact absurd ⟨⟨by omega, by omega⟩, ⟨hcell.2.1, hcell.2.2.1⟩,
          by omega, hcell.2.2.2.2⟩ hab
      · rw [if_neg (by
            rintro ⟨⟨h1, h2⟩, hb, hak, hbk⟩
            exact hab ⟨⟨by omega, by omega⟩, hb, hak, hbk⟩), if_neg hcell]

theorem invCol_loop (k : Nat) :
    ∀ (len s : Nat) (g : GridR R),
    ((idxList s len).foldl (fun g i =>
      if i ≠ k then setR g i k (gemmNN (-1) (g i k) (g k k) 0 (g i k)) else g) g)
    = fun a b =>
        if b = k ∧ s ≤ a ∧ a < s + len ∧ a ≠ k
        then gemmNN (-1) (g a k) (g k k) 0 (g a k)
        else g a b := by
  intro len
  induction len with
  | zero =>
    intro s g
    simp only [idxList, List.foldl_nil]
    funext a b
    rw [if_neg (by rintro ⟨_, h1, h2, _⟩; omega)]
  | succ m ih =>
    intro s g
    simp only [idxList, List.foldl_cons]
    by_cases hsk : s = k
    · rw [if_neg (by simpa using hsk), ih (s + 1) g]
      funext a b
      by_cases hab : b = k ∧ s + 1 ≤ a ∧ a < s + 1 + m ∧ a ≠ k
      · rw [if_pos hab, if_pos ⟨hab.1, by omega, by omega, hab.2.2.2⟩]
      · rw [if_neg hab,
          if_neg (by rintro ⟨h1, h2, h3, h4⟩; exact hab ⟨h1, by omega, by omega, h4⟩)]
    · rw [if_pos hsk]
      rw [ih (s + 1) (setR g s k (gemmNN (-1) (g s k) (g k k) 0 (g s k)))]
      have hkk : setR g s k (gemmNN (-1) (g s k) (g k k) 0 (g s k)) k k = g k k :=
        setR_other _ _ _ _ _ _ (by rintro ⟨hc, _⟩; exact hsk hc.symm)
      funext a b
      by_cases hab : b = k ∧ s ≤ a ∧ a < s + (m + 1) ∧ a ≠ k
      · obtain ⟨hb, ha1, ha2, hak⟩ := hab
        by_cases has : a = s
        · rw [if_neg (by rintro ⟨_, hc, _⟩; omega)]
          subst hb
          subst has
          rw [setR_same, if_pos ⟨rfl, ha1, ha2, hak⟩]
        · rw [if_pos ⟨hb, by omega, by omega, hak⟩, hkk,
            setR_other _ _ _ _ _ _ (by rintro ⟨hc, _⟩; exact has hc),
            if_pos ⟨hb, ha1, ha2, hak⟩]
      · rw [if_neg (by rintro ⟨h1, h2, h3, h4⟩; exact hab ⟨h1, by omega, by omega, h4⟩)]
        rw [if_neg hab]
        exact setR_other _ _ _ _ _ _
          (by rintro ⟨h1, h2⟩; exact hab ⟨h2, by omega, by omega, by omega⟩)

/-! Named stage grids of one Gauss-Jordan step. -/

/-- Grid after the row-`k` loop. -/
def invRowGrid (k s len : Nat) (g : GridR R) : GridR R := fun a b =>
  if a = k ∧ s ≤ b ∧ b < s + len ∧ b ≠ k
  then gemmNN 1 (g k k) (g k b) 0 (g k b) else g a b

/-- Grid after the trailing-update double loop. -/
def invUpdGrid (k s0 len0 s len : Nat) (g : GridR R) : GridR R := fun a b =>
  if (s ≤ a ∧ a < s + len) ∧ (s0 ≤ b ∧ b < s0 + len0) ∧ a ≠ k ∧ b ≠ k
  then gemmNN (-1) (g a k) (g k b) 1 (g a b) else g a b

/-- Grid after the column-`k` loop. -/
def invColGrid (k s len : Nat) (g : GridR R) : GridR R := fun a b =>
  if b = k ∧ s ≤ a ∧ a < s + len ∧ a ≠ k
  then gemmNN (-1) (g a k) (g k k) 0 (g a k) else g a b

theorem invRow_char (k len s : Nat) (g : GridR R) :
    ((idxList s len).foldl (fun g j =>
      if j ≠ k then setR g k j (gemmNN 1 (g k k) (g k j) 0 (g k j)) else g) g)
    = invRowGrid k s len g :=
  invRow_loop k len s g

theorem invUpd_char (k s0 len0 len s : Nat) (g : GridR R) :
    ((idxList s len).foldl (fun g i =>
      (idxList s0 len0).foldl (fun g j =>
        if i ≠ k ∧ j ≠ k then setR g i j (gemmNN (-1) (g i k) (g k j) 1 (g i j)) else g) g) g)
    = invUpdGrid k s0 len0 s len g :=
  invUpd_outer_loop k s0 len0 len s g

theorem invCol_char (k len s : Nat) (g : GridR R) :
    ((idxList s len).foldl (fun g i =>
      if i ≠ k then setR g i k (gemmNN (-1) (g i k) (g k k) 0 (g i k)) else g) g)
    = invColGrid k s len g :=
  invCol_loop k len s g

/-- One Gauss-Jordan step of the code agrees with the spec's step. -/
theorem inverseStep_eq (inv : R → R) (n k : Nat) (hk : k < n) (g : GridR R) :
    inverseStep inv n k g = inverseStepSpec inv n k g := by
  unfold inverseStep
  simp only []
  rw [invRow_char k n 0, invUpd_char k 0 n n 0, invCol_char k n 0]
  set G1 : GridR R := setR g k k (inv (g k k)) with hG1
  set Rg : GridR R := invRowGrid k 0 n G1 with hRg
  set Ug : GridR R := invUpdGrid k 0 n 0 n Rg with hUg
  have hg1kk : G1 k k = inv (g k k) := setR_same _ _ _ _
  have hg1o : ∀ a b, ¬(a = k ∧ b = k) → G1 a b = g a b :=
    fun a b h => setR_other _ _ _ _ _ _ h
  have hRo : ∀ a b, a ≠ k → Rg a b = g a b := by
    intro a b ha
    rw [hRg]
    unfold invRowGrid
    rw [if_neg (by rintro ⟨hc, _⟩; exact ha hc)]
    exact hg1o a b (by rintro ⟨hc, _⟩; exact ha hc)
  have hRkk : Rg k k = inv (g k k) := by
    rw [hRg]
    unfold invRowGrid
    rw [if_neg (by rintro ⟨_, _, _, hc⟩; exact hc rfl)]
    exact hg1kk
  have hRkb : ∀ b, b < n → b ≠ k → Rg k b = gemmNN 1 (inv (g k k)) (g k b) 0 (g k b) := by
    intro b hb hbk
    rw [hRg]
    unfold invRowGrid
    rw [if_pos ⟨rfl, Nat.zero_le b, by omega, hbk⟩, hg1kk,
      hg1o k b (by rintro ⟨_, hc⟩; exact hbk hc)]
  have hRkb2 : ∀ b, ¬(b < n) → Rg k b = g k b := by
    intro b hb
    rw [hRg]
    unfold invRowGrid
    rw [if_neg (by rintro ⟨_, _, hc, _⟩; omega)]
    exact hg1o k b (by rintro ⟨_, hc⟩; subst hc; omega)
  have hUak : ∀ a b, ¬(a ≠ k ∧ b ≠ k ∧ a < n ∧ b < n) → Ug a b = Rg a b := by
    intro a b h
    rw [hUg]
    unfold invUpdGrid
    rw [if_neg (by rintro ⟨⟨_, h1⟩, ⟨_, h2⟩, h3, h4⟩; exact h ⟨h3, h4, by omega, by omega⟩)]
  have hUv : ∀ a b, a < n → b < n → a ≠ k → b ≠ k →
      Ug a b = gemmNN (-1) (g a k) (gemmNN 1 (inv (g k k)) (g k b) 0 (g k b)) 1 (g a b) := by
    intro a b ha hb hak hbk
    rw [hUg]
    unfold invUpdGrid
    rw [if_pos ⟨⟨Nat.zero_le a, by omega⟩, ⟨Nat.zero_le b, by omega⟩, hak, hbk⟩]
    rw [hRo a k hak, hRkb b hb hbk, hRo a b hak]
  funext a b
  rw [inverseStepSpec]
  unfold invColGrid
  by_cases hak : a = k
  · subst hak
    rw [if_neg (by rintro ⟨_, _, _, hc⟩; exact hc rfl)]
    by_cases hbk : b = a
    · subst hbk
      rw [hUak b b (by rintro ⟨hc, _⟩; exact hc rfl), hRkk,
        if_pos ⟨hk, hk⟩, if_pos ⟨rfl, rfl⟩]
    · by_cases hbn : b < n
      · rw [hUak a b (by rintro ⟨hc, _⟩; exact hc rfl),
          hRkb b hbn (fun hc => hbk hc), if_pos ⟨hk, hbn⟩,
          if_neg (by rintro ⟨_, hc⟩; exact hbk hc), if_pos rfl]
        unfold gemmNN
        noncomm_ring
      · rw [hUak a b (by rintro ⟨hc, _⟩; exact hc rfl), hRkb2 b hbn,
          if_neg (by rintro ⟨_, hc⟩; exact hbn hc)]
  · by_cases hbk : b = k
    · subst hbk
      by_cases han : a < n
      · rw [if_pos ⟨rfl, Nat.zero_le a, by omega, hak⟩]
        rw [hUak a b (by rintro ⟨_, hc, _⟩; exact hc rfl), hRo a b hak,
          hUak b b (by rintro ⟨hc, _⟩; exact hc rfl), hRkk]
        rw [if_pos ⟨han, hk⟩, if_neg (by rintro ⟨hc, _⟩; exact hak hc),
          if_neg (by rintro hc; exact hak hc), if_pos rfl]
        unfold gemmNN
        noncomm_ring
      · rw [if_neg (by rintro ⟨_, _, hc, _⟩; omega)]
        rw [hUak a b (by rintro ⟨_, hc, _⟩; exact hc rfl), hRo a b hak,
          if_neg (by rintro ⟨hc, _⟩; omega)]
    · rw [if_neg (by rintro ⟨hc, _⟩; exact hbk hc)]
      by_cases hr : a < n ∧ b < n
      · rw [hUv a b hr.1 hr.2 hak hbk, if_pos ⟨hr.1, hr.2⟩,
          if_neg (by rintro ⟨hc, _⟩; exact hak hc),
          if_neg (by rintro hc; exact hak hc), if_neg (fun hc => hbk hc)]
        unfold gemmNN
        noncomm_ring
      · rw [hUak a b (by rintro ⟨_, _, h1, h2⟩; exact hr ⟨h1, h2⟩), hRo a b hak,
          if_neg (by rintro ⟨h1, h2⟩; exact hr ⟨h1, h2⟩)]

omit [Ring R] in
theorem foldl_congr_of_mem {l : List Nat} {f f2 : GridR R → Nat → GridR R}
    (h : ∀ g k, k ∈ l → f g k = f2 g k) : ∀ g, l.foldl f g = l.foldl f2 g := by
  induction l with
  | nil => intro g; rfl
  | cons i is ih =>
    intro g
    simp only [List.foldl_cons]
    rw [h g i (List.mem_cons_self i is)]
    exact ih (fun g k hk => h g k (List.mem_cons_of_mem _ hk)) _

/-- The whole code inverse agrees with the spec's Gauss-Jordan. -/
theorem recursiveInverseNosym_eq_spec (inv : R → R) (n : Nat) (g : GridR R) :
    recursiveInverseNosym inv n g = inverseNosymSpec inv n g := by
  unfold recursiveInverseNosym inverseNosymSpec
  exact foldl_congr_of_mem
    (fun g k hk => inverseStep_eq inv n k (by have := mem_idxList.1 hk; omega) g) g

/-- The Schur complement of the `(0,0)` child, as computed by the first
Gauss-Jordan step on a 2x2 grid: the value held by cell `(1,1)` after
step 0. -/
def schur2 (inv : R → R) (g : GridR R) : R :=
  g 1 1 - g 1 0 * (inv (g 0 0) * g 0 1)

/-- `(x * y) i j` for 2x2 block grids. -/
def blockMul2 (x y : GridR R) (i j : Nat) : R :=
  x i 0 * y 0 j + x i 1 * y 1 j

end InverseModel

/-- The eight block identities making the Gauss-Jordan output a two-sided
inverse of `(A B; C D)`, given two-sided inverses `A'` of `A` and `S'` of
the Schur complement `D - C * (A' * B)`. -/
theorem gj2_cells {R : Type} [Ring R] (A B C D A' S' : R)
    (hA1 : A' * A = 1) (hA2 : A * A' = 1)
    (hS1 : S' * (D - C * (A' * B)) = 1) (hS2 : (D - C * (A' * B)) * S' = 1) :
    ((A' + A' * B * (S' * (C * A'))) * A + -(A' * B * S') * C = 1)
    ∧ ((A' + A' * B * (S' * (C * A'))) * B + -(A' * B * S') * D = 0)
    ∧ (-(S' * (C * A')) * A + S' * C = 0)
    ∧ (-(S' * (C * A')) * B + S' * D = 1)
    ∧ (A * (A' + A' * B * (S' * (C * A'))) + B * -(S' * (C * A')) = 1)
    ∧ (A * -(A' * B * S') + B * S' = 0)
    ∧ (C * (A' + A' * B * (S' * (C * A'))) + D * -(S' * (C * A')) = 0)
    ∧ (C * -(A' * B * S') + D * S' = 1) := by
  have cAx : ∀ x : R, A * (A' * x) = x := fun x => by rw [← mul_assoc, hA2, one_mul]
  have cSx : ∀ x : R, (D - C * (A' * B)) * (S' * x) = x := fun x => by
    rw [← mul_assoc, hS2, one_mul]
  refine ⟨?_, ?_, ?_, ?_, ?_, ?_, ?_, ?_⟩
  · calc (A' + A' * B * (S' * (C * A'))) * A + -(A' * B * S') * C
        = A' * A + A' * (B * (S' * (C * (A' * A)))) - A' * (B * (S' * C)) := by noncomm_ring
      _ = 1 := by rw [hA1]; noncomm_ring
  · calc (A' + A' * B * (S' * (C * A'))) * B + -(A' * B * S') * D
        = A' * B - A' * (B * (S' * (D - C * (A' * B)))) := by noncomm_ring
      _ = 0 := by rw [hS1]; noncomm_ring
  · calc -(S' * (C * A')) * A + S' * C
        = S' * C - S' * (C * (A' * A)) := by noncomm_ring
      _ = 0 := by rw [hA1]; noncomm_ring
  · calc -(S' * (C * A')) * B + S' * D
        = S' * (D - C * (A' * B)) := by noncomm_ring
      _ = 1 := hS1
  · calc A * (A' + A' * B * (S' * (C * A'))) + B * -(S' * (C * A'))
        = A * A' + A * (A' * (B * (S' * (C * A')))) - B * (S' * (C * A')) := by noncomm_ring
      _ = 1 := by rw [hA2, cAx]; noncomm_ring
  · calc A * -(A' * B * S') + B * S'
        = B * S' - A * (A' * (B * S')) := by noncomm_ring
      _ = 0 := by rw [cAx]; noncomm_ring
  · calc C * (A' + A' * B * (S' * (C * A'))) + D * -(S' * (C * A'))
        = C * A' + (C * (A' * (B * (S' * (C * A'))))) - D * (S' * (C * A')) := by noncomm_ring
      _ = C * A' - (D - C * (A' * B)) * (S' * (C * A')) := by noncomm_ring
      _ = 0 := by rw [cSx]; noncomm_ring
  · calc C * -(A' * B * S') + D * S'
        = (D - C * (A' * B)) * S' := by noncomm_ring
      _ = 1 := hS2

section InverseCells

variable {R : Type} [Ring R]

/-- Cell `(0,0)` of the 2x2 Gauss-Jordan output. -/
theorem recursiveInverseNosym_cell00 (inv : R → R) (g : GridR R) :
    recursiveInverseNosym inv 2 g 0 0 =
      inv (g 0 0) + inv (g 0 0) * g 0 1 *
        (inv (schur2 inv g) * (g 1 0 * inv (g 0 0))) := by
  rw [recursiveInverseNosym_eq_spec]
  show inverseStepSpec inv 2 1 (inverseStepSpec inv 2 0 g) 0 0 = _
  simp only [inverseStepSpec, schur2]
  norm_num

/-- Cell `(0,1)` of the 2x2 Gauss-Jordan output. -/
theorem recursiveInverseNosym_cell01 (inv : R → R) (g : GridR R) :
    recursiveInverseNosym inv 2 g 0 1 =
      -(inv (g 0 0) * g 0 1 * inv (schur2 inv g)) := by
  rw [recursiveInverseNosym_eq_spec]
  show inverseStepSpec inv 2 1 (inverseStepSpec inv 2 0 g) 0 1 = _
  simp only [inverseStepSpec, schur2]
  norm_num

/-- Cell `(1,0)` of the 2x2 Gauss-Jordan output. -/
theorem recursiveInverseNosym_cell10 (inv : R → R) (g : GridR R) :
    recursiveInverseNosym inv 2 g 1 0 =
      -(inv (schur2 inv g) * (g 1 0 * inv (g 0 0))) := by
  rw [recursiveInverseNosym_eq_spec]
  show inverseStepSpec inv 2 1 (inverseStepSpec inv 2 0 g) 1 0 = _
  simp only [inverseStepSpec, schur2]
  norm_num

/-- Cell `(1,1)` of the 2x2 Gauss-Jordan output. -/
theorem recursiveInverseNosym_cell11 (inv : R → R) (g : GridR R) :
    recursiveInverseNosym inv 2 g 1 1 = inv (schur2 inv g) := by
  rw [recursiveInverseNosym_eq_spec]
  show inverseStepSpec inv 2 1 (inverseStepSpec inv 2 0 g) 1 1 = _
  simp only [inverseStepSpec, schur2]
  norm_num

end InverseCells

/-- C2.  `recursiveInverseNosym` performs the spec's block Gauss-Jordan
elimination — at each `k` it inverts `M[k,k]` in place, replaces `M[k,j]`
(`j != k`) by `M[k,k]^{-1} * M[k,j]` computed from the temporary copy of
the old `M[k,j]`, updates `M[i,j] -= M[i,k] * M[k,j]` for `i, j != k`,
and replaces `M[i,k]` (`i != k`) by `-M[i,k] * M[k,k]^{-1}`, again via a
temporary — and on a 2x2 Internal node, whenever the two diagonal
inversions produce two-sided inverses (of `M[0,0]` and of the Schur
complement), the resulting grid is a two-sided inverse of the original
matrix. -/
theorem recursiveInverseNosym_correct :
    (∀ (R : Type) [Ring R] (inv : R → R) (n : Nat) (g : GridR R),
        recursiveInverseNosym inv n g = inverseNosymSpec inv n g)
    ∧ (∀ (R : Type) [Ring R] (inv : R → R) (g : GridR R),
        inv (g 0 0) * g 0 0 = 1 → g 0 0 * inv (g 0 0) = 1 →
        inv (schur2 inv g) * schur2 inv g = 1 → schur2 inv g * inv (schur2 inv g) = 1 →
        ∀ i j, i < 2 → j < 2 →
          blockMul2 (recursiveInverseNosym inv 2 g) g i j = (if i = j then 1 else 0)
          ∧ blockMul2 g (recursiveInverseNosym inv 2 g) i j = (if i = j then 1 else 0)) := by
  constructor
  · intro R instR inv n g
    exact recursiveInverseNosym_eq_spec inv n g
  · intro R instR inv g hA1 hA2 hS1 hS2 i j hi hj
    have hS1e : inv (schur2 inv g) * (g 1 1 - g 1 0 * (inv (g 0 0) * g 0 1)) = 1 := hS1
    have hS2e : (g 1 1 - g 1 0 * (inv (g 0 0) * g 0 1)) * inv (schur2 inv g) = 1 := hS2
    have hg := gj2_cells (g 0 0) (g 0 1) (g 1 0) (g 1 1) (inv (g 0 0)) (inv (schur2 inv g))
      hA1 hA2 hS1e hS2e
    obtain ⟨e1, e2, e3, e4, e5, e6, e7, e8⟩ := hg
    have h00 := recursiveInverseNosym_cell00 inv g
    have h01 := recursiveInverseNosym_cell01 inv g
    have h10 := recursiveInverseNosym_cell10 inv g
    have h11 := recursiveInverseNosym_cell11 inv g
    have hi2 : i = 0 ∨ i = 1 := by omega
    have hj2 : j = 0 ∨ j = 1 := by omega
    rcases hi2 with rfl | rfl <;> rcases hj2 with rfl | rfl <;>
      refine ⟨?_, ?_⟩ <;> simp only [blockMul2, h00, h01, h10, h11, reduceIte]
    · exact e1
    · exact e5
    · exact e2
    · exact e6
    · exact e3
    · exact e7
    · exact e4
    · exact e8

/-- Concrete diagonal 2x2 grid over the rationals for the C2 witness. -/
def invG0 : GridR ℚ := fun i j => if i = j then 2 else 0

/-- Witness for C2: at the concrete grid `invG0` with the exact rational
inverse as oracle, the output is a two-sided inverse. -/
theorem recursiveInverseNosym_correct_witness :
    blockMul2 (recursiveInverseNosym (fun x : ℚ => x⁻¹) 2 invG0) invG0 0 0 = 1 := by
  have h := (recursiveInverseNosym_correct.2 ℚ (fun x : ℚ => x⁻¹) invG0
    (by norm_num [invG0]) (by norm_num [invG0])
    (by norm_num [schur2, invG0]) (by norm_num [schur2, invG0])
    0 0 (by norm_num) (by norm_num)).1
  simpa using h

/-! ## C interface parameter plumbing (`hmat_set_parameters`)

`hmat_set_parameters` (the unnamed C interface file, lines 130-192)
copies an `hmat_settings_t` into the global `HMatSettings` singleton.
The two `switch` statements translate the public enum codes into the
internal enums; their `default:` branches print an error, set `rc = 1`
and assign nothing.  The public enum fields may hold arbitrary integer
codes, so they are modelled as `Int` with one named constant per
recognized enumerator of `hmat.h` (the concrete code values are
immaterial to the claim).  `double` fields are carried as exact
rationals: the function only copies or zero-tests them.  The trailing
`setParameters()` / `printSettings()` calls do not modify the fields. -/

def hmat_compress_svd : Int := 0
def hmat_compress_aca_full : Int := 1
/-- `hmat_compress_aca_partial` in `hmat.h`. -/
def hmat_compress_aca_part : Int := 2
def hmat_compress_aca_plus : Int := 3
def hmat_compress_rk_null : Int := 4

def hmat_cluster_geometric : Int := 0
def hmat_cluster_median : Int := 1
def hmat_cluster_hybrid : Int := 2

/-- Internal `CompressionMethod` enum (`acaPart` is `AcaPartial` in the
source). -/
inductive CompressionMethod where
  | svd
  | acaFull
  | acaPart
  | acaPlus
  | rkNull
deriving DecidableEq

/-- Internal clustering enum. -/
inductive ClusteringMethod where
  | kGeometric
  | kMedian
  | kHybrid
deriving DecidableEq

/-- The global admissibility-condition pointer after the call: either a
freshly created `StandardAdmissibilityCondition(factor)` or the
caller-provided pointer (identified by an id). -/
inductive AdmCond where
  | standard (eta : ℚ)
  | external (ptr : Nat)
deriving DecidableEq

/-- The global `HMatSettings` singleton. -/
structure HMatSettings where
  assemblyEpsilon : ℚ
  recompressionEpsilon : ℚ
  compressionMethod : CompressionMethod
  compressionMinLeafSize : Int
  admissibilityCondition : AdmCond
  clustering : ClusteringMethod
  maxLeafSize : Int
  maxParallelLeaves : Int
  elementsPerBlock : Int
  useLu : Bool
  useLdlt : Bool
  coarsening : Bool
  recompress : Bool
  validateCompression : Bool
  validationErrorThreshold : ℚ
  validationReRun : Bool
  validationDump : Bool
deriving DecidableEq

/-- The `hmat_settings_t` argument struct. -/
structure HmatSettingsT where
  assemblyEpsilon : ℚ
  recompressionEpsilon : ℚ
  compressionMethod : Int
  compressionMinLeafSize : Int
  admissibilityCondition : Nat
  admissibilityFactor : ℚ
  clustering : Int
  maxLeafSize : Int
  maxParallelLeaves : Int
  elementsPerBlock : Int
  useLu : Bool
  useLdlt : Bool
  coarsening : Bool
  recompress : Bool
  validateCompression : Bool
  validationErrorThreshold : ℚ
  validationReRun : Bool
  validationDump : Bool
deriving DecidableEq

/-- `hmat_set_parameters`, returning the `rc` result code and the new
global settings. -/
def hmat_set_parameters (old : HMatSettings) (s : HmatSettingsT) : Int × HMatSettings :=
  let rc : Int := 0
  let g := { old with assemblyEpsilon := s.assemblyEpsilon }
  let g := { g with recompressionEpsilon := s.recompressionEpsilon }
  -- switch (settings->compressionMethod)
  let r1 :=
    if s.compressionMethod = hmat_compress_svd then
      (rc, { g with compressionMethod := CompressionMethod.svd })
    else if s.compressionMethod = hmat_compress_aca_full then
      (rc, { g with compressionMethod := CompressionMethod.acaFull })
    else if s.compressionMethod = hmat_compress_aca_part then
      (rc, { g with compressionMethod := CompressionMethod.acaPart })
    else if s.compressionMethod = hmat_compress_aca_plus then
      (rc, { g with compressionMethod := CompressionMethod.acaPlus })
    else if s.compressionMethod = hmat_compress_rk_null then
      (rc, { g with compressionMethod := CompressionMethod.rkNull })
    else (1, g)
  let rc := r1.1
  let g := r1.2
  let g := { g with compressionMinLeafSize := s.compressionMinLeafSize }
  let g := { g with admissibilityCondition :=
    if s.admissibilityFactor ≠ 0 then AdmCond.standard s.admissibilityFactor
    else AdmCond.external s.admissibilityCondition }
  -- switch (settings->clustering)
  let r2 :=
    if s.clustering = hmat_cluster_geometric then
      (rc, { g with clustering := ClusteringMethod.kGeometric })
    else if s.clustering = hmat_cluster_median then
      (rc, { g with clustering := ClusteringMethod.kMedian })
    else if s.clustering = hmat_cluster_hybrid then
      (rc, { g with clustering := ClusteringMethod.kHybrid })
    else (1, g)
  let rc := r2.1
  let g := r2.2
  let g := { g with maxLeafSize := s.maxLeafSize }
  let g := { g with maxParallelLeaves := s.maxParallelLeaves }
  let g := { g with elementsPerBlock := s.elementsPerBlock }
  let g := { g with useLu := s.useLu }
  let g := { g with useLdlt := s.useLdlt }
  let g := { g with coarsening := s.coarsening }
  let g := { g with recompress := s.recompress }
  let g := { g with validateCompression := s.validateCompression }
  let g := { g with validationErrorThreshold := s.validationErrorThreshold }
  let g := { g with validationReRun := s.validationReRun }
  let g := { g with validationDump := s.validationDump }
  (rc, g)

/-- A compression code the `switch` recognizes. -/
def compressionRecognized (c : Int) : Prop :=
  c = hmat_compress_svd ∨ c = hmat_compress_aca_full ∨ c = hmat_compress_aca_part ∨
  c = hmat_compress_aca_plus ∨ c = hmat_compress_rk_null

/-- A clustering code the `switch` recognizes. -/
def clusteringRecognized (c : Int) : Prop :=
  c = hmat_cluster_geometric ∨ c = hmat_cluster_median ∨ c = hmat_cluster_hybrid

instance (c : Int) : Decidable (compressionRecognized c) := by
  unfold compressionRecognized
  infer_instance

instance (c : Int) : Decidable (clusteringRecognized c) := by
  unfold clusteringRecognized
  infer_instance

/-- Internal value a recognized compression code maps to; unrecognized
codes keep the previous global value. -/
def mapCompression (c : Int) (old : CompressionMethod) : CompressionMethod :=
  if c = hmat_compress_svd then .svd
  else if c = hmat_compress_aca_full then .acaFull
  else if c = hmat_compress_aca_part then .acaPart
  else if c = hmat_compress_aca_plus then .acaPlus
  else if c = hmat_compress_rk_null then .rkNull
  else old

/-- Internal value a recognized clustering code maps to; unrecognized
codes keep the previous global value. -/
def mapClustering (c : Int) (old : ClusteringMethod) : ClusteringMethod :=
  if c = hmat_cluster_geometric then .kGeometric
  else if c = hmat_cluster_median then .kMedian
  else if c = hmat_cluster_hybrid then .kHybrid
  else old

/-- C9.  `hmat_set_parameters` returns 0 exactly when both the
compression and clustering codes are recognized and 1 otherwise; an
unrecognized code leaves the corresponding global enum at its previous
value; and every other field of the argument is copied into the global
settings regardless (no rollback of the partially applied
configuration). -/
theorem hmat_set_parameters_spec (old : HMatSettings) (s : HmatSettingsT) :
    ((hmat_set_parameters old s).1 =
      if compressionRecognized s.compressionMethod ∧ clusteringRecognized s.clustering
      then 0 else 1)
    ∧ (hmat_set_parameters old s).2.compressionMethod =
        mapCompression s.compressionMethod old.compressionMethod
    ∧ (hmat_set_parameters old s).2.clustering =
        mapClustering s.clustering old.clustering
    ∧ (hmat_set_parameters old s).2.assemblyEpsilon = s.assemblyEpsilon
    ∧ (hmat_set_parameters old s).2.recompressionEpsilon = s.recompressionEpsilon
    ∧ (hmat_set_parameters old s).2.compressionMinLeafSize = s.compressionMinLeafSize
    ∧ (hmat_set_parameters old s).2.admissibilityCondition =
        (if s.admissibilityFactor ≠ 0 then AdmCond.standard s.admissibilityFactor
         else AdmCond.external s.admissibilityCondition)
    ∧ (hmat_set_parameters old s).2.maxLeafSize = s.maxLeafSize
    ∧ (hmat_set_parameters old s).2.maxParallelLeaves = s.maxParallelLeaves
    ∧ (hmat_set_parameters old s).2.elementsPerBlock = s.elementsPerBlock
    ∧ (hmat_set_parameters old s).2.useLu = s.useLu
    ∧ (hmat_set_parameters old s).2.useLdlt = s.useLdlt
    ∧ (hmat_set_parameters old s).2.coarsening = s.coarsening
    ∧ (hmat_set_parameters old s).2.recompress = s.recompress
    ∧ (hmat_set_parameters old s).2.validateCompression = s.validateCompression
    ∧ (hmat_set_parameters old s).2.validationErrorThreshold = s.validationErrorThreshold
    ∧ (hmat_set_parameters old s).2.validationReRun = s.validationReRun
    ∧ (hmat_set_parameters old s).2.validationDump = s.validationDump := by
  unfold hmat_set_parameters mapCompression mapClustering compressionRecognized
    clusteringRecognized
  split_ifs <;> simp_all

/-! ## ScalarArray views (`scalar_array.hpp:64` and `scalar_array.hpp:86`) -/

/-- The header of a `ScalarArray<T>` object: the storage pointer is an
address into a flat scalar memory, and `ownsMemory` records whether the
destructor has to free the storage.  A constructor that aliases the
source's address allocates no storage and copies no data. -/
structure ScalarArrayV where
  m : Nat
  rows : Nat
  cols : Nat
  lda : Nat
  ownsMemory : Bool
deriving DecidableEq

/-- Modelled from the spec: the body of
`ScalarArray(T* _m, int _rows, int _cols, int _lda)` is not under `src/`;
per its doc comment (scalar_array.hpp:65-74) it wraps the existing data
and "the matrix doesn't own the data (the memory is not freed at the
object destruction)".  `lda` is the value the caller passes (the
sub-block constructor always passes `d.lda`). -/
def scalarArrayFromPointer (m rows cols lda : Nat) : ScalarArrayV :=
  { m := m, rows := rows, cols := cols, lda := lda, ownsMemory := false }

/-- Copy constructor (scalar_array.hpp:64):
`ownsMemory(false), m(d.m), rows(d.rows), cols(d.cols), lda(d.lda)`. -/
def scalarArrayCopyCtor (d : ScalarArrayV) : ScalarArrayV :=
  { m := d.m, rows := d.rows, cols := d.cols, lda := d.lda, ownsMemory := false }

/-- Sub-block constructor (scalar_array.hpp:86): delegates to the
data-pointer constructor with address
`d.m + rowsOffset + colsOffset * d.lda`, the requested sizes, and
`d.lda`. -/
def scalarArraySubBlockCtor (d : ScalarArrayV)
    (rowsOffset rowsSize colsOffset colsSize : Nat) : ScalarArrayV :=
  scalarArrayFromPointer (d.m + rowsOffset + colsOffset * d.lda) rowsSize colsSize d.lda

/-- Modelled from the spec: `~ScalarArray` is not under `src/`; per the
`ownsMemory` field doc (scalar_array.hpp:44-45, "True if the matrix owns
its memory, ie has to free it upon destruction") the destructor frees the
storage exactly when `ownsMemory` is set. -/
def scalarArrayDtorFrees (a : ScalarArrayV) : Bool := a.ownsMemory

/-- C10.  Both view constructors alias the source's storage — the copy
constructor at the same address, the sub-block constructor at
`d.m + rowsOffset + colsOffset * d.lda` — keep the source's leading
dimension, take the requested shape, set `ownsMemory` to false, and thus
never free the shared storage on destruction.  No new storage appears and
no scalar is copied: the constructed object is a header over the source's
memory. -/
theorem scalarArray_view_aliases (d : ScalarArrayV)
    (rowsOffset rowsSize colsOffset colsSize : Nat) :
    (scalarArrayCopyCtor d).m = d.m
    ∧ (scalarArrayCopyCtor d).rows = d.rows
    ∧ (scalarArrayCopyCtor d).cols = d.cols
    ∧ (scalarArrayCopyCtor d).lda = d.lda
    ∧ (scalarArrayCopyCtor d).ownsMemory = false
    ∧ scalarArrayDtorFrees (scalarArrayCopyCtor d) = false
    ∧ (scalarArraySubBlockCtor d rowsOffset rowsSize colsOffset colsSize).m =
        d.m + rowsOffset + colsOffset * d.lda
    ∧ (scalarArraySubBlockCtor d rowsOffset rowsSize colsOffset colsSize).rows = rowsSize
    ∧ (scalarArraySubBlockCtor d rowsOffset rowsSize colsOffset colsSize).cols = colsSize
    ∧ (scalarArraySubBlockCtor d rowsOffset rowsSize colsOffset colsSize).lda = d.lda
    ∧ (scalarArraySubBlockCtor d rowsOffset rowsSize colsOffset colsSize).ownsMemory = false
    ∧ scalarArrayDtorFrees (scalarArraySubBlockCtor d rowsOffset rowsSize colsOffset colsSize)
        = false :=
  ⟨rfl, rfl, rfl, rfl, rfl, rfl, rfl, rfl, rfl, rfl, rfl, rfl⟩

/-! ## ScalarArray serialization (spec-modelled)

`writeArray` / `readArray` (declared scalar_array.hpp:236-242) and
`toFile` / `fromFile` (scalar_array.hpp:180-186) are implemented in
`scalar_array.cpp`, which is not under `src/`.  Modelled from the spec:
"ScalarArray tiles may be serialized as: `int rows, int cols` header
followed by `rows*cols` scalars in column-major order. ... A symmetric
read routine reconstructs a tile of matching shape."  The scalar type is
an arbitrary `α`, so equality of scalars models bit-identity. -/

/-- A dense tile: column-major storage with leading dimension `lda`. -/
structure SATile (α : Type) where
  rows : Nat
  cols : Nat
  lda : Nat
  data : Nat → α

/-- `m[i + lda * j]` (scalar_array.hpp:191-196). -/
def SATile.get {α : Type} (a : SATile α) (i j : Nat) : α := a.data (i + a.lda * j)

/-- Modelled from the spec: serialize as the `(rows, cols)` header
followed by the `rows*cols` scalars in column-major order. -/
def writeArray {α : Type} (a : SATile α) : (Nat × Nat) × List α :=
  ((a.rows, a.cols),
   (List.range a.cols).flatMap (fun j => (List.range a.rows).map (fun i => a.get i j)))

/-- Modelled from the spec: the symmetric read routine reconstructs a
contiguous tile (`lda = rows`) of the shape announced by the header from
the column-major scalar stream, rejecting a stream of the wrong length. -/
def readArray {α : Type} (dflt : α) (s : (Nat × Nat) × List α) : Option (SATile α) :=
  if s.2.length = s.1.2 * s.1.1 then
    some { rows := s.1.1, cols := s.1.2, lda := s.1.1,
           data := fun idx => s.2.getD idx dflt }
  else none

theorem colMajor_length {α : Type} (f : Nat → Nat → α) (r : Nat) :
    ∀ c, ((List.range c).flatMap (fun j => (List.range r).map (fun i => f i j))).length
      = c * r := by
  intro c
  induction c with
  | zero => simp
  | succ m ih =>
    rw [List.range_succ, List.flatMap_append, List.length_append, ih]
    simp [Nat.succ_mul]

theorem colMajor_getD {α : Type} (dflt : α) (f : Nat → Nat → α) (r : Nat) :
    ∀ c i j, i < r → j < c →
    ((List.range c).flatMap (fun j => (List.range r).map (fun i => f i j))).getD
        (i + r * j) dflt = f i j := by
  intro c
  induction c with
  | zero =>
    intro i j _ hj
    exact absurd hj (by omega)
  | succ m ih =>
    intro i j hi hj
    rw [List.range_succ, List.flatMap_append]
    by_cases hjm : j < m
    · have hlt : i + r * j < ((List.range m).flatMap
          (fun j => (List.range r).map (fun i => f i j))).length := by
        rw [colMajor_length]
        have h1 : r * (j + 1) ≤ r * m := Nat.mul_le_mul_left r hjm
        have h2 : i + r * j < r * (j + 1) := by rw [Nat.mul_succ]; omega
        have h3 : r * m = m * r := Nat.mul_comm r m
        omega
      rw [List.getD_append _ _ _ _ hlt]
      exact ih i j hi hjm
    · have hjm2 : j = m := by omega
      subst hjm2
      have hlen : ((List.range j).flatMap
          (fun j2 => (List.range r).map (fun i => f i j2))).length = j * r :=
        colMajor_length f r j
      rw [List.getD_append_right _ _ _ _ (by rw [hlen]; have := Nat.mul_comm r j; omega)]
      rw [hlen]
      have hidx : i + r * j - j * r = i := by have := Nat.mul_comm r j; omega
      rw [hidx]
      simp only [List.flatMap_cons, List.flatMap_nil, List.append_nil]
      rw [List.getD_eq_getElem?_getD, List.getElem?_map, List.getElem?_range hi]
      rfl

/-- C7.  Writing a tile (header `rows, cols` then the `rows*cols` scalars
column-major) and reading it back with the symmetric routine reproduces
the shape and every stored scalar unchanged. -/
theorem scalarArray_serialization_roundtrip {α : Type} (dflt : α) (a : SATile α)
    (i j : Nat) (hi : i < a.rows) (hj : j < a.cols) :
    Option.map (fun a2 => (a2.rows, a2.cols, a2.get i j)) (readArray dflt (writeArray a))
      = some (a.rows, a.cols, a.get i j) := by
  unfold readArray writeArray
  rw [if_pos (colMajor_length (fun i j => a.get i j) a.rows a.cols)]
  have h := colMajor_getD dflt (fun i j => a.get i j) a.rows a.cols i j hi hj
  simp only [Option.map_some', SATile.get] at h ⊢
  rw [h]

/-- Concrete tile over `Int` for the C7 witness (2x3, `lda = 5`, entry
`(i, j)` stored as `i + 5 * j`). -/
def saW : SATile Int := { rows := 2, cols := 3, lda := 5, data := fun idx => Int.ofNat idx }

/-- Witness for C7 at the concrete tile `saW`, cell `(1, 2)`. -/
theorem scalarArray_serialization_roundtrip_witness :
    (1 < saW.rows ∧ 2 < saW.cols)
    ∧ Option.map (fun a2 => (a2.rows, a2.cols, a2.get 1 2)) (readArray 0 (writeArray saW))
      = some (saW.rows, saW.cols, saW.get 1 2) :=
  ⟨⟨by decide, by decide⟩,
    scalarArray_serialization_roundtrip 0 saW 1 2 (by decide) (by decide)⟩

/-! ## modifiedGramSchmidt (spec-modelled)

`ScalarArray::modifiedGramSchmidt` is only declared in
`scalar_array.hpp:366`; its body lives in `scalar_array.cpp`, which is not
under `src/`.  Modelled from the spec and the declaration's doc comment
(scalar_array.hpp:334-365): columns are elements of a module `V` over an
ordered field `K`, the 2-norm is induced by a dot product passed as a
parameter, and the square root is an oracle `sqrt : K → K`.  Each
iteration selects the remaining column of maximal (squared) norm,
normalizes it, and removes its component from every remaining column;
the loop stops when the maximal squared norm among the remaining columns
is at most `prec^2` times the maximal initial squared column norm, and
the returned rank is the number of orthonormal columns produced.  The
comparisons are carried out on squared norms (for the exact square root,
`max‖·‖ ≤ prec·max_initial‖·‖` iff `max‖·‖² ≤ prec²·max_initial‖·‖²`),
so the pivot search and the stop test never need the oracle.  Precisions
outside `[1e-6, 1)` are rejected (the doc requires `prec < 1` and warns
the lowest allowed precision is `1e-6`). -/

section MGS

variable {K : Type} [LinearOrderedField K] {V : Type} [AddCommGroup V] [Module K V]

/-- Pivot search: the remaining column of maximal squared norm, together
with the other columns in their original order. -/
def selectMax (dot : V → V → K) : List V → Option (V × List V)
  | [] => none
  | v :: vs =>
    match selectMax dot vs with
    | none => some (v, [])
    | some (w, ws) => if dot v v < dot w w then some (w, v :: ws) else some (v, vs)

/-- One MGS iteration per unit of fuel: pick the pivot, stop if its
squared norm is at or below the threshold, otherwise normalize it and
subtract its component from every remaining column.  The caller passes
`fuel := cols.length`, which the loop can never exhaust early since each
iteration consumes one column. -/
def mgsLoop (dot : V → V → K) (sqrt : K → K) (thresh : K) : Nat → List V → List V
  | 0, _ => []
  | fuel + 1, rem =>
    match selectMax dot rem with
    | none => []
    | some (p, rest) =>
      if dot p p ≤ thresh then []
      else
        (sqrt (dot p p))⁻¹ • p ::
          mgsLoop dot sqrt thresh fuel
            (rest.map (fun v =>
              v - dot ((sqrt (dot p p))⁻¹ • p) v • ((sqrt (dot p p))⁻¹ • p)))

/-- Modelled from the spec: the whole procedure.  Rejects a precision
outside `[1/1000000, 1)`, otherwise runs the pivoted loop with threshold
`prec² · max_initial‖·‖²` and returns the rank (the number of columns
produced) together with the orthonormal columns. -/
def modifiedGramSchmidt (dot : V → V → K) (sqrt : K → K) (cols : List V) (prec : K) :
    Option (Nat × List V) :=
  if 1 / 1000000 ≤ prec ∧ prec < 1 then
    some ((mgsLoop dot sqrt (prec * prec * (cols.map (fun v => dot v v)).foldr max 0)
             cols.length cols).length,
          mgsLoop dot sqrt (prec * prec * (cols.map (fun v => dot v v)).foldr max 0)
            cols.length cols)
  else none

omit [AddCommGroup V] [Module K V] in
theorem selectMax_eq_none (dot : V → V → K) :
    ∀ l : List V, selectMax dot l = none ↔ l = [] := by
  intro l
  cases l with
  | nil => simp [selectMax]
  | cons v vs =>
    simp only [selectMax]
    cases h : selectMax dot vs with
    | none => simp
    | some pr =>
      obtain ⟨w, ws⟩ := pr
      by_cases hlt : dot v v < dot w w
      · simp [hlt]
      · simp [hlt]

omit [AddCommGroup V] [Module K V] in
theorem selectMax_mem (dot : V → V → K) :
    ∀ (l : List V) (p : V) (rest : List V), selectMax dot l = some (p, rest) → p ∈ l := by
  intro l
  induction l with
  | nil => intro p rest h; simp [selectMax] at h
  | cons v vs ih =>
    intro p rest h
    simp only [selectMax] at h
    cases h2 : selectMax dot vs with
    | none =>
      simp only [h2, Option.some.injEq, Prod.mk.injEq] at h
      obtain ⟨rfl, rfl⟩ := h
      exact List.mem_cons_self v vs
    | some pr =>
      obtain ⟨w, ws⟩ := pr
      simp only [h2] at h
      by_cases hlt : dot v v < dot w w
      · rw [if_pos hlt] at h
        simp only [Option.some.injEq, Prod.mk.injEq] at h
        obtain ⟨rfl, rfl⟩ := h
        exact List.mem_cons_of_mem v (ih w ws h2)
      · rw [if_neg hlt] at h
        simp only [Option.some.injEq, Prod.mk.injEq] at h
        obtain ⟨rfl, rfl⟩ := h
        exact List.mem_cons_self v vs

omit [AddCommGroup V] [Module K V] in
theorem selectMax_rest_mem (dot : V → V → K) :
    ∀ (l : List V) (p : V) (rest : List V), selectMax dot l = some (p, rest) →
      ∀ u ∈ rest, u ∈ l := by
  intro l
  induction l with
  | nil => intro p rest h; simp [selectMax] at h
  | cons v vs ih =>
    intro p rest h
    simp only [selectMax] at h
    cases h2 : selectMax dot vs with
    | none =>
      simp only [h2, Option.some.injEq, Prod.mk.injEq] at h
      obtain ⟨rfl, rfl⟩ := h
      intro u hu
      simp at hu
    | some pr =>
      obtain ⟨w, ws⟩ := pr
      simp only [h2] at h
      by_cases hlt : dot v v < dot w w
      · rw [if_pos hlt] at h
        simp only [Option.some.injEq, Prod.mk.injEq] at h
        obtain ⟨rfl, rfl⟩ := h
        intro u hu
        rcases List.mem_cons.mp hu with h3 | h3
        · subst h3; exact List.mem_cons_self u vs
        · exact List.mem_cons_of_mem v (ih w ws h2 u h3)
      · rw [if_neg hlt] at h
        simp only [Option.some.injEq, Prod.mk.injEq] at h
        obtain ⟨rfl, rfl⟩ := h
        intro u hu
        exact List.mem_cons_of_mem v hu

omit [AddCommGroup V] [Module K V] in
theorem selectMax_isMax (dot : V → V → K) :
    ∀ (l : List V) (p : V) (rest : List V), selectMax dot l = some (p, rest) →
      ∀ u ∈ l, dot u u ≤ dot p p := by
  intro l
  induction l with
  | nil => intro p rest h; simp [selectMax] at h
  | cons v vs ih =>
    intro p rest h
    simp only [selectMax] at h
    cases h2 : selectMax dot vs with
    | none =>
      simp only [h2, Option.some.injEq, Prod.mk.injEq] at h
      obtain ⟨rfl, rfl⟩ := h
      have hvs : vs = [] := (selectMax_eq_none dot vs).mp h2
      subst hvs
      intro u hu
      simp only [List.mem_singleton] at hu
      subst hu
      exact le_refl _
    | some pr =>
      obtain ⟨w, ws⟩ := pr
      simp only [h2] at h
      have hmax := ih w ws h2
      by_cases hlt : dot v v < dot w w
      · rw [if_pos hlt] at h
        simp only [Option.some.injEq, Prod.mk.injEq] at h
        obtain ⟨rfl, rfl⟩ := h
        intro u hu
        rcases List.mem_cons.mp hu with h3 | h3
        · subst h3; exact le_of_lt hlt
        · exact hmax u h3
      · rw [if_neg hlt] at h
        simp only [Option.some.injEq, Prod.mk.injEq] at h
        obtain ⟨rfl, rfl⟩ := h
        intro u hu
        rcases List.mem_cons.mp hu with h3 | h3
        · subst h3; exact le_refl _
        · exact le_trans (hmax u h3) (not_lt.mp hlt)

theorem dot_smul_right (dot : V → V → K)
    (hsym : ∀ x y, dot x y = dot y x)
    (hsmull : ∀ (c : K) (x y : V), dot (c • x) y = c * dot x y)
    (c : K) (x y : V) : dot x (c • y) = c * dot x y := by
  rw [hsym, hsmull, hsym]

theorem dot_sub_left (dot : V → V → K)
    (haddl : ∀ x y z, dot (x + y) z = dot x z + dot y z)
    (hsmull : ∀ (c : K) (x y : V), dot (c • x) y = c * dot x y)
    (x y z : V) : dot (x - y) z = dot x z - dot y z := by
  have h : x - y = x + (-1 : K) • y := by rw [neg_one_smul, ← sub_eq_add_neg]
  rw [h, haddl, hsmull]
  ring

theorem dot_sub_right (dot : V → V → K)
    (hsym : ∀ x y, dot x y = dot y x)
    (haddl : ∀ x y z, dot (x + y) z = dot x z + dot y z)
    (hsmull : ∀ (c : K) (x y : V), dot (c • x) y = c * dot x y)
    (x y z : V) : dot x (y - z) = dot x y - dot x z := by
  rw [hsym, dot_sub_left dot haddl hsmull, hsym y x, hsym z x]

theorem normalized_unit (dot : V → V → K) (sqrt : K → K)
    (hsym : ∀ x y, dot x y = dot y x)
    (hsmull : ∀ (c : K) (x y : V), dot (c • x) y = c * dot x y)
    (hsqrt : ∀ x, 0 ≤ x → sqrt x * sqrt x = x)
    (p : V) (hpos : 0 < dot p p) :
    dot ((sqrt (dot p p))⁻¹ • p) ((sqrt (dot p p))⁻¹ • p) = 1 := by
  set s := sqrt (dot p p) with hsdef
  have hs : s * s = dot p p := hsqrt (dot p p) (le_of_lt hpos)
  have hsne : s ≠ 0 := by
    intro h0
    rw [h0, mul_zero] at hs
    exact absurd hs.symm (ne_of_gt hpos)
  rw [hsmull, dot_smul_right dot hsym hsmull, ← hs]
  calc s⁻¹ * (s⁻¹ * (s * s)) = (s⁻¹ * s) * (s⁻¹ * s) := by ring
  _ = 1 := by rw [inv_mul_cancel₀ hsne, one_mul]

theorem mgsLoop_unit (dot : V → V → K) (sqrt : K → K) (thresh : K)
    (hsym : ∀ x y, dot x y = dot y x)
    (hsmull : ∀ (c : K) (x y : V), dot (c • x) y = c * dot x y)
    (hsqrt : ∀ x, 0 ≤ x → sqrt x * sqrt x = x)
    (hthresh : 0 ≤ thresh) :
    ∀ (fuel : Nat) (rem : List V), ∀ q ∈ mgsLoop dot sqrt thresh fuel rem,
      dot q q = 1 := by
  intro fuel
  induction fuel with
  | zero => intro rem q hq; simp only [mgsLoop, List.not_mem_nil] at hq
  | succ n ih =>
    intro rem q hq
    simp only [mgsLoop] at hq
    cases hsel : selectMax dot rem with
    | none => simp only [hsel, List.not_mem_nil] at hq
    | some pr =>
      obtain ⟨p, rest⟩ := pr
      simp only [hsel] at hq
      by_cases hle : dot p p ≤ thresh
      · rw [if_pos hle] at hq; simp at hq
      · rw [if_neg hle] at hq
        rcases List.mem_cons.mp hq with h | h
        · subst h
          exact normalized_unit dot sqrt hsym hsmull hsqrt p
            (lt_of_le_of_lt hthresh (not_le.mp hle))
        · exact ih _ _ h

theorem mgsLoop_perp (dot : V → V → K) (sqrt : K → K) (thresh : K)
    (hsym : ∀ x y, dot x y = dot y x)
    (haddl : ∀ x y z, dot (x + y) z = dot x z + dot y z)
    (hsmull : ∀ (c : K) (x y : V), dot (c • x) y = c * dot x y) :
    ∀ (fuel : Nat) (rem : List V) (y : V), (∀ v ∈ rem, dot y v = 0) →
      ∀ q ∈ mgsLoop dot sqrt thresh fuel rem, dot y q = 0 := by
  intro fuel
  induction fuel with
  | zero => intro rem y hy q hq; simp only [mgsLoop, List.not_mem_nil] at hq
  | succ n ih =>
    intro rem y hy q hq
    simp only [mgsLoop] at hq
    cases hsel : selectMax dot rem with
    | none => simp only [hsel, List.not_mem_nil] at hq
    | some pr =>
      obtain ⟨p, rest⟩ := pr
      simp only [hsel] at hq
      by_cases hle : dot p p ≤ thresh
      · rw [if_pos hle] at hq; simp at hq
      · rw [if_neg hle] at hq
        have hyp0 : dot y ((sqrt (dot p p))⁻¹ • p) = 0 := by
          rw [dot_smul_right dot hsym hsmull,
            hy p (selectMax_mem dot rem p rest hsel), mul_zero]
        rcases List.mem_cons.mp hq with h | h
        · subst h; exact hyp0
        · refine ih _ y ?_ q h
          intro w hw
          obtain ⟨v, hv, rfl⟩ := List.mem_map.mp hw
          rw [dot_sub_right dot hsym haddl hsmull, dot_smul_right dot hsym hsmull,
            hy v (selectMax_rest_mem dot rem p rest hsel v hv), hyp0, mul_zero, sub_zero]

theorem mgsLoop_pairwise (dot : V → V → K) (sqrt : K → K) (thresh : K)
    (hsym : ∀ x y, dot x y = dot y x)
    (haddl : ∀ x y z, dot (x + y) z = dot x z + dot y z)
    (hsmull : ∀ (c : K) (x y : V), dot (c • x) y = c * dot x y)
    (hsqrt : ∀ x, 0 ≤ x → sqrt x * sqrt x = x)
    (hthresh : 0 ≤ thresh) :
    ∀ (fuel : Nat) (rem : List V),
      (mgsLoop dot sqrt thresh fuel rem).Pairwise (fun a b => dot a b = 0) := by
  intro fuel
  induction fuel with
  | zero => intro rem; simp only [mgsLoop]; exact List.Pairwise.nil
  | succ n ih =>
    intro rem
    simp only [mgsLoop]
    cases hsel : selectMax dot rem with
    | none => exact List.Pairwise.nil
    | some pr =>
      obtain ⟨p, rest⟩ := pr
      simp only []
      by_cases hle : dot p p ≤ thresh
      · rw [if_pos hle]; exact List.Pairwise.nil
      · rw [if_neg hle]
        have hpos : 0 < dot p p := lt_of_le_of_lt hthresh (not_le.mp hle)
        have hunit := normalized_unit dot sqrt hsym hsmull hsqrt p hpos
        refine List.pairwise_cons.mpr ⟨?_, ih _⟩
        intro b hb
        refine mgsLoop_perp dot sqrt thresh hsym haddl hsmull n _ _ ?_ b hb
        intro w hw
        obtain ⟨v, hv, rfl⟩ := List.mem_map.mp hw
        rw [dot_sub_right dot hsym haddl hsmull, dot_smul_right dot hsym hsmull, hunit,
          mul_one, sub_self]

theorem mgsLoop_span (dot : V → V → K) (sqrt : K → K) (thresh : K) :
    ∀ (fuel : Nat) (rem : List V), ∀ q ∈ mgsLoop dot sqrt thresh fuel rem,
      q ∈ Submodule.span K {x | x ∈ rem} := by
  intro fuel
  induction fuel with
  | zero => intro rem q hq; simp only [mgsLoop, List.not_mem_nil] at hq
  | succ n ih =>
    intro rem q hq
    simp only [mgsLoop] at hq
    cases hsel : selectMax dot rem with
    | none => simp only [hsel, List.not_mem_nil] at hq
    | some pr =>
      obtain ⟨p, rest⟩ := pr
      simp only [hsel] at hq
      by_cases hle : dot p p ≤ thresh
      · rw [if_pos hle] at hq; simp at hq
      · rw [if_neg hle] at hq
        have hpmem : p ∈ Submodule.span K {x | x ∈ rem} :=
          Submodule.subset_span (selectMax_mem dot rem p rest hsel)
        have hq0 : (sqrt (dot p p))⁻¹ • p ∈ Submodule.span K {x | x ∈ rem} :=
          Submodule.smul_mem _ _ hpmem
        rcases List.mem_cons.mp hq with h | h
        · subst h; exact hq0
        · have hsub : {x | x ∈ rest.map (fun v =>
              v - dot ((sqrt (dot p p))⁻¹ • p) v • ((sqrt (dot p p))⁻¹ • p))} ⊆
              (Submodule.span K {x | x ∈ rem} : Set V) := by
            intro w hw
            simp only [Set.mem_setOf_eq] at hw
            obtain ⟨v, hv, rfl⟩ := List.mem_map.mp hw
            exact Submodule.sub_mem _
              (Submodule.subset_span (selectMax_rest_mem dot rem p rest hsel v hv))
              (Submodule.smul_mem _ _ hq0)
          exact Submodule.span_le.mpr hsub (ih _ q h)

theorem mgsLoop_stop_iff (dot : V → V → K) (sqrt : K → K) (thresh : K) :
    ∀ (fuel : Nat) (rem : List V), rem.length ≤ fuel →
      (mgsLoop dot sqrt thresh fuel rem = [] ↔
        rem = [] ∨ ∃ p rest, selectMax dot rem = some (p, rest) ∧ dot p p ≤ thresh) := by
  intro fuel rem hlen
  cases fuel with
  | zero =>
    have hnil : rem = [] := List.eq_nil_of_length_eq_zero (Nat.le_zero.mp hlen)
    subst hnil
    simp [mgsLoop]
  | succ n =>
    simp only [mgsLoop]
    cases hsel : selectMax dot rem with
    | none =>
      have hnil := (selectMax_eq_none dot rem).mp hsel
      subst hnil
      simp
    | some pr =>
      obtain ⟨p, rest⟩ := pr
      simp only []
      have hne : rem ≠ [] := by
        intro h0
        subst h0
        rw [(selectMax_eq_none dot []).mpr rfl] at hsel
        cases hsel
      by_cases hle : dot p p ≤ thresh
      · rw [if_pos hle]
        constructor
        · intro _; exact Or.inr ⟨p, rest, rfl, hle⟩
        · intro _; rfl
      · rw [if_neg hle]
        constructor
        · intro h0; exact absurd h0 (List.cons_ne_nil _ _)
        · rintro (h0 | ⟨p2, rest2, hsel2, hle2⟩)
          · exact absurd h0 hne
          · simp only [Option.some.injEq, Prod.mk.injEq] at hsel2
            obtain ⟨rfl, rfl⟩ := hsel2
            exact absurd hle2 hle

theorem mgsLoop_step (dot : V → V → K) (sqrt : K → K) (thresh : K)
    (fuel : Nat) (rem : List V) (p : V) (rest : List V)
    (hsel : selectMax dot rem = some (p, rest)) (hgt : thresh < dot p p) :
    mgsLoop dot sqrt thresh (fuel + 1) rem =
      (sqrt (dot p p))⁻¹ • p ::
        mgsLoop dot sqrt thresh fuel
          (rest.map (fun v =>
            v - dot ((sqrt (dot p p))⁻¹ • p) v • ((sqrt (dot p p))⁻¹ • p))) := by
  simp only [mgsLoop, hsel]
  rw [if_neg (not_le.mpr hgt)]

omit [AddCommGroup V] [Module K V] in
theorem foldr_max_nonneg : ∀ l : List K, (0 : K) ≤ l.foldr max 0 := by
  intro l
  induction l with
  | nil => exact le_refl 0
  | cons a l ih => exact le_trans ih (le_max_right a _)

end MGS

/-- C6 (amended).  For every column list and precision, the modelled
`modifiedGramSchmidt`: (a) succeeds exactly when `1e-6 ≤ prec < 1`;
(b) returns as rank the number of columns produced, which — under a
symmetric bilinear dot product and a faithful square-root oracle — are
orthonormal and lie in the span of the original columns (their span is in
general a proper subspace of `Im(A)`: see the counterexample);
(c) the loop stops exactly when no column remains or the maximal
remaining squared norm is at most the threshold; (d) each iteration picks
a remaining column of maximal squared norm, normalizes it, and subtracts
its component from each remaining column. -/
theorem modifiedGramSchmidt_properties
    {K : Type} [LinearOrderedField K] {V : Type} [AddCommGroup V] [Module K V]
    (dot : V → V → K) (sqrt : K → K)
    (hsym : ∀ x y, dot x y = dot y x)
    (haddl : ∀ x y z, dot (x + y) z = dot x z + dot y z)
    (hsmull : ∀ (c : K) (x y : V), dot (c • x) y = c * dot x y)
    (hsqrt : ∀ x, 0 ≤ x → sqrt x * sqrt x = x)
    (cols : List V) (prec : K) :
    ((modifiedGramSchmidt dot sqrt cols prec).isSome ↔ 1 / 1000000 ≤ prec ∧ prec < 1)
    ∧ (∀ rk Q, modifiedGramSchmidt dot sqrt cols prec = some (rk, Q) →
        rk = Q.length
        ∧ Q = mgsLoop dot sqrt (prec * prec * (cols.map (fun v => dot v v)).foldr max 0)
              cols.length cols
        ∧ (∀ q ∈ Q, dot q q = 1)
        ∧ Q.Pairwise (fun a b => dot a b = 0)
        ∧ (∀ q ∈ Q, q ∈ Submodule.span K {x | x ∈ cols}))
    ∧ (∀ (thresh : K) (fuel : Nat) (rem : List V), rem.length ≤ fuel →
        (mgsLoop dot sqrt thresh fuel rem = [] ↔
          rem = [] ∨ ∃ p rest, selectMax dot rem = some (p, rest) ∧ dot p p ≤ thresh))
    ∧ (∀ (thresh : K) (fuel : Nat) (rem : List V) (p : V) (rest : List V),
        selectMax dot rem = some (p, rest) → thresh < dot p p →
          (∀ u ∈ rem, dot u u ≤ dot p p)
          ∧ mgsLoop dot sqrt thresh (fuel + 1) rem =
              (sqrt (dot p p))⁻¹ • p ::
                mgsLoop dot sqrt thresh fuel
                  (rest.map (fun v =>
                    v - dot ((sqrt (dot p p))⁻¹ • p) v • ((sqrt (dot p p))⁻¹ • p)))) := by
  refine ⟨?_, ?_, ?_, ?_⟩
  · unfold modifiedGramSchmidt
    split_ifs with h
    · exact iff_of_true rfl h
    · exact iff_of_false (by simp) h
  · intro rk Q hQ
    unfold modifiedGramSchmidt at hQ
    split_ifs at hQ with h
    · simp only [Option.some.injEq, Prod.mk.injEq] at hQ
      obtain ⟨hrk, hQeq⟩ := hQ
      have hthresh : 0 ≤ prec * prec * (cols.map (fun v => dot v v)).foldr max 0 :=
        mul_nonneg (mul_self_nonneg prec) (foldr_max_nonneg _)
      subst hQeq
      subst hrk
      exact ⟨rfl, rfl,
        mgsLoop_unit dot sqrt _ hsym hsmull hsqrt hthresh cols.length cols,
        mgsLoop_pairwise dot sqrt _ hsym haddl hsmull hsqrt hthresh cols.length cols,
        mgsLoop_span dot sqrt _ cols.length cols⟩
  · intro thresh fuel rem hlen
    exact mgsLoop_stop_iff dot sqrt thresh fuel rem hlen
  · intro thresh fuel rem p rest hsel hgt
    exact ⟨selectMax_isMax dot rem p rest hsel,
      mgsLoop_step dot sqrt thresh fuel rem p rest hsel hgt⟩

/-- Witness for C6 over the reals with the genuine square root: the
precision guard accepts `prec = 1/2` and the run on one column `[2]`
succeeds. -/
theorem modifiedGramSchmidt_properties_witness :
    ((1 : ℝ) / 1000000 ≤ 1 / 2 ∧ (1 / 2 : ℝ) < 1)
    ∧ (modifiedGramSchmidt (fun x y : ℝ => x * y) Real.sqrt [(2 : ℝ)] (1 / 2)).isSome :=
  ⟨⟨by norm_num, by norm_num⟩,
   ((modifiedGramSchmidt_properties (fun x y : ℝ => x * y) Real.sqrt
        (fun x y => mul_comm x y) (fun x y z => add_mul x y z)
        (fun c x y => by show (c • x) * y = c * (x * y); rw [smul_eq_mul, mul_assoc])
        (fun x hx => Real.mul_self_sqrt hx)
        [(2 : ℝ)] (1 / 2)).1).mpr ⟨by norm_num, by norm_num⟩⟩

/-- Dot product on `ℚ²` for the C6 counterexample. -/
def dotQ2 (x y : ℚ × ℚ) : ℚ := x.1 * y.1 + x.2 * y.2

/-- Columns `(1,0)` and `(0,1/4)`: linearly independent, of norms `1` and
`1/4`. -/
def mgsColsCE : List (ℚ × ℚ) := [(1, 0), (0, 1 / 4)]

/-- Square-root oracle for the counterexample run.  In this run the
oracle is only ever applied to `1` (the squared norm of the only pivot),
where it agrees with the true square root, so the run is exactly what the
real algorithm computes on these columns. -/
def sqrtCE : ℚ → ℚ := fun _ => 1

/-- C6 counterexample: with columns `(1,0)` and `(0,1/4)` and precision
`1/2`, the run stops after one iteration (the remaining squared norm
`1/16` is at most `prec² · 1 = 1/4`), returning rank 1 and `Q = [(1,0)]`.
The column `(0,1/4)` of `A` lies in `Im(A)` but not in the span of `Q`,
so the output columns are not a basis of `Im(A)` — refuting the spec's
"orthonormal columns forming a basis of Im(A)"; they only generate the
numerical range at precision `prec`. -/
theorem modifiedGramSchmidt_not_a_basis :
    modifiedGramSchmidt dotQ2 sqrtCE mgsColsCE (1 / 2)
        = some (1, [((1 : ℚ), (0 : ℚ))])
    ∧ ((0 : ℚ), (1 / 4 : ℚ)) ∈ Submodule.span ℚ {x | x ∈ mgsColsCE}
    ∧ ((0 : ℚ), (1 / 4 : ℚ)) ∉ Submodule.span ℚ {x | x ∈ [((1 : ℚ), (0 : ℚ))]} := by
  refine ⟨?_, ?_, ?_⟩
  · have hsel2 : selectMax dotQ2 [((0 : ℚ), (1 / 4 : ℚ))] = some ((0, 1 / 4), []) := rfl
    have hsel1 : selectMax dotQ2 mgsColsCE
        = some (((1 : ℚ), (0 : ℚ)), [((0 : ℚ), (1 / 4 : ℚ))]) := by
      simp only [mgsColsCE, selectMax]
      rw [if_neg (by norm_num [dotQ2])]
    unfold modifiedGramSchmidt
    rw [if_pos (by constructor <;> norm_num)]
    have hm0 : ((mgsColsCE.map (fun v => dotQ2 v v)).foldr max 0 : ℚ) = 1 := by
      have hd1 : dotQ2 ((1 : ℚ), (0 : ℚ)) ((1 : ℚ), (0 : ℚ)) = 1 := by norm_num [dotQ2]
      have hd2 : dotQ2 ((0 : ℚ), (1 / 4 : ℚ)) ((0 : ℚ), (1 / 4 : ℚ)) = 1 / 16 := by
        norm_num [dotQ2]
      simp only [mgsColsCE, List.map_cons, List.map_nil, List.foldr_cons, List.foldr_nil,
        hd1, hd2]
      rw [max_eq_left (by norm_num : (0 : ℚ) ≤ 1 / 16),
        max_eq_left (by norm_num : (1 / 16 : ℚ) ≤ 1)]
    have hlen2 : mgsColsCE.length = 2 := rfl
    rw [hlen2, hm0]
    have ht : (1 / 2 : ℚ) * (1 / 2) * 1 = 1 / 4 := by norm_num
    rw [ht]
    have hrun : mgsLoop dotQ2 sqrtCE (1 / 4) 2 mgsColsCE = [((1 : ℚ), (0 : ℚ))] := by
      rw [mgsLoop_step dotQ2 sqrtCE (1 / 4) 1 mgsColsCE ((1 : ℚ), (0 : ℚ))
        [((0 : ℚ), (1 / 4 : ℚ))] hsel1 (by norm_num [dotQ2])]
      have hq0 : (sqrtCE (dotQ2 ((1 : ℚ), (0 : ℚ)) ((1 : ℚ), (0 : ℚ))))⁻¹
          • ((1 : ℚ), (0 : ℚ)) = ((1 : ℚ), (0 : ℚ)) := by
        simp [sqrtCE]
      rw [hq0]
      have hmap : [((0 : ℚ), (1 / 4 : ℚ))].map
          (fun v => v - dotQ2 ((1 : ℚ), (0 : ℚ)) v • ((1 : ℚ), (0 : ℚ)))
          = [((0 : ℚ), (1 / 4 : ℚ))] := by
        simp [dotQ2]
      rw [hmap]
      have hstop : mgsLoop dotQ2 sqrtCE (1 / 4) 1 [((0 : ℚ), (1 / 4 : ℚ))] = [] := by
        simp only [mgsLoop, hsel2]
        rw [if_pos (by norm_num [dotQ2])]
      rw [hstop]
    rw [hrun]
    rfl
  · exact Submodule.subset_span (by simp [mgsColsCE])
  · intro hmem
    have hset : {x | x ∈ [((1 : ℚ), (0 : ℚ))]} = ({((1 : ℚ), (0 : ℚ))} : Set (ℚ × ℚ)) := by
      ext z
      simp
    rw [hset] at hmem
    obtain ⟨a, ha⟩ := Submodule.mem_span_singleton.mp hmem
    have h2 := congrArg Prod.snd ha
    simp only [Prod.smul_snd, smul_eq_mul, mul_zero] at h2
    exact absurd h2 (by norm_num)

end HmatOss
